import Mathlib

/-!
# Verification of the CTSP scheduler core

A shallow embedding, in Lean 4, of the routing-to-schedule converter for the
Consistent Traveling Salesman Problem (CTSP) found in this repository, together
with theorems settling the specification claims about it.

Conventions used throughout the embedding:

* C++ `double` values are modelled as exact rationals (`ℚ`); the numerical
  constants of the source (`1E-3`, `1E-6`, `1E100`, the truncation precision
  `1E3`) are carried over literally.
* `std::vector` becomes `List`; out-of-range reads that the source never
  performs are modelled with `getD` defaults.
* Fallible code (a failed `assert`, an `exit`, a loop that can only diverge on
  malformed input) is modelled with `Option`/`Except`.
* Each definition mirrors one function of the C++ source, named after it.
-/

namespace CTSP

/-- The checker tolerance `tol_ = 1E-3` (`ctsp_sync_checker`). -/
def checker_tol : ℚ := 1 / 1000

/-- C-library `round`: half-away-from-zero rounding, as used by
`ctsp_sync_checker::truncate_`. -/
def cpp_round (q : ℚ) : ℤ :=
  if 0 ≤ q then ⌊q + 1 / 2⌋ else -⌊-q + 1 / 2⌋

/-- `ctsp_sync_checker::truncate_`: `round(val * precision_) / precision_`
with `precision_ = 1E3`. -/
def truncate (q : ℚ) : ℚ :=
  (cpp_round (q * 1000) : ℚ) / 1000

/-!
## Claim C1: LP status dispatch of the feasibility test

`ctsp_sync_checker::is_feasible_(double &obj_val)` runs the LP solver and
turns the solver status into a verdict.  The scheduler reaches it through the
`sync_iterative_checker<ctsp_lb_sync_checker>::is_feasible` wrapper used by
`conTSP2_scheduling::solve`.  The function body is:

* `feasible = false; obj_val = 0.0; solve();`
* status `1` (optimal): `obj_val = get_obj()`, feasible iff `obj_val > -0.001`;
* status `2` (unbounded): `assert(false); exit(0)` — fatal;
* any other status: print `"Error: <stat>"` and fall through with
  `feasible = true`.

We model the solver call by its observable pair (status, objective value) and
the fatal `exit` by `Except.error`.
-/

/-- `ctsp_sync_checker::is_feasible_(double &obj_val)`: the status dispatch,
returning the pair `(feasible, obj_val)` or a fatal error. -/
def is_feasible_status (lp_stat : ℤ) (obj : ℚ) : Except String (Bool × ℚ) :=
  if lp_stat = 1 then
    Except.ok (decide (obj > -(1 / 1000)), obj)
  else if lp_stat = 2 then
    Except.error "Unbounded"
  else
    Except.ok (true, 0)

/-!
## Claim C2: slack normalization in the scheduler

`conTSP2_scheduling::refine_solution_` starts its accumulator `s_min` at `0.0`
and lowers it over the depot-departure entries `s[0..n_depots)`, then subtracts
`s_min` from every entry.
-/

/-- `conTSP2_scheduling::refine_solution_`. -/
def refine_solution (n_depots : ℕ) (s : List ℚ) : List ℚ :=
  let s_min := (s.take n_depots).foldl (fun m v => if m > v then v else m) 0
  s.map (fun v => v - s_min)

/-- `v` is the minimum value of the list `l`. -/
def is_min_of (v : ℚ) (l : List ℚ) : Prop :=
  v ∈ l ∧ ∀ u ∈ l, v ≤ u

instance (v : ℚ) (l : List ℚ) : Decidable (is_min_of v l) := by
  unfold is_min_of; infer_instance

theorem foldl_ite_eq_min (l : List ℚ) (c : ℚ) :
    l.foldl (fun a v => if a > v then v else a) c = l.foldl min c := by
  have hstep : (fun (a v : ℚ) => if a > v then v else a) = min := by
    funext a v
    by_cases hav : a > v
    · simp [hav, min_eq_right (le_of_lt hav)]
    · simp [hav, min_eq_left (le_of_not_lt hav)]
  rw [hstep]

theorem foldl_min_const (l : List ℚ) (c : ℚ) (h : ∀ u ∈ l, c ≤ u) :
    l.foldl min c = c := by
  induction l with
  | nil => rfl
  | cons a t ih =>
    have hca : c ≤ a := h a (by simp)
    simp only [List.foldl_cons, min_eq_left hca]
    exact ih fun u hu => h u (List.mem_cons_of_mem _ hu)

theorem foldl_min_of (m : ℚ) (l : List ℚ) (hmem : m ∈ l)
    (hle : ∀ u ∈ l, m ≤ u) : ∀ c : ℚ, l.foldl min c = min c m := by
  induction l with
  | nil => cases hmem
  | cons h t ih =>
    intro c
    simp only [List.foldl_cons]
    rcases List.mem_cons.mp hmem with hh | ht
    · subst hh
      exact foldl_min_const t (min c m) fun u hu =>
        le_trans (min_le_right _ _) (hle u (List.mem_cons_of_mem _ hu))
    · have hmh : m ≤ h := hle h (by simp)
      rw [ih ht (fun u hu => hle u (List.mem_cons_of_mem _ hu)) (min c h),
        min_assoc, min_eq_right hmh]

/-- Claim C2 (as stated): for every slack vector, after
`conTSP2_scheduling::refine_solution_` the minimum of `s` over the
depot-departure operations (the first `n_depots` entries) equals `0`.  This is
refuted below: the source initializes its running minimum at `0.0`, so a slack
vector whose depot entries are all positive is left unshifted. -/
theorem claim_C2_counterexample :
    ¬ is_min_of 0 ((refine_solution 1 [1, 2]).take 1) := by
  have h : refine_solution 1 [1, 2] = [1, 2] := by
    unfold refine_solution
    norm_num
  rw [h]
  unfold is_min_of
  norm_num

/-- Claim C2, amended: `refine_solution_` subtracts `min 0 m` (not `m`) from
every entry, where `m` is the minimum slack over the depot-departure
operations; afterwards the depot-departure minimum equals `max m 0` — in
particular it is `0` exactly when some depot-departure slack was `≤ 0`. -/
theorem claim_C2 (D : ℕ) (s : List ℚ) (m : ℚ)
    (hm : is_min_of m (s.take D)) :
    refine_solution D s = s.map (fun v => v - min 0 m) ∧
      is_min_of (max m 0) ((refine_solution D s).take D) := by
  have hfold : (s.take D).foldl (fun a v => if a > v then v else a) 0 =
      min 0 m := by
    rw [foldl_ite_eq_min]
    exact foldl_min_of m (s.take D) hm.1 hm.2 0
  constructor
  · unfold refine_solution
    rw [hfold]
  · unfold refine_solution
    rw [hfold, ← List.map_take]
    obtain ⟨hmem, hle⟩ := hm
    constructor
    · refine List.mem_map.mpr ⟨m, hmem, ?_⟩
      rcases le_total m 0 with h | h
      · rw [min_eq_right h, max_eq_right h, sub_self]
      · rw [min_eq_left h, max_eq_left h, sub_zero]
    · intro u hu
      obtain ⟨w, hw, hwu⟩ := List.mem_map.mp hu
      subst hwu
      have hmw := hle w hw
      rcases le_total m 0 with h | h
      · rw [min_eq_right h, max_eq_right h]
        simpa using hmw
      · rw [min_eq_left h, max_eq_left h, sub_zero]
        exact hmw

/-- Witness for the amended claim C2 at a concrete input. -/
theorem claim_C2_witness :
    is_min_of 1 (([1, 2] : List ℚ).take 1) ∧
      refine_solution 1 [1, 2] = [1, 2] ∧
      is_min_of (max 1 0) ((refine_solution 1 [1, 2]).take 1) := by
  have hmin : is_min_of 1 (([1, 2] : List ℚ).take 1) := by
    unfold is_min_of
    norm_num
  have h := claim_C2 1 [1, 2] 1 hmin
  refine ⟨hmin, ?_, h.2⟩
  rw [h.1]
  norm_num

/-- Claim C1: the status dispatch of the feasibility test — optimal status
(`1`) yields feasible iff the objective exceeds `-1E-3`; unbounded status
(`2`) is fatal; every other status is only logged and reported feasible. -/
theorem claim_C1 (lp_stat : ℤ) (obj : ℚ) :
    (lp_stat = 1 →
      (is_feasible_status lp_stat obj = Except.ok (true, obj) ↔
        obj > -(1 / 1000)) ∧
      (¬ obj > -(1 / 1000) →
        is_feasible_status lp_stat obj = Except.ok (false, obj))) ∧
    (lp_stat = 2 → is_feasible_status lp_stat obj = Except.error "Unbounded") ∧
    (lp_stat ≠ 1 → lp_stat ≠ 2 →
      is_feasible_status lp_stat obj = Except.ok (true, 0)) := by
  refine ⟨?_, ?_, ?_⟩
  · intro h1
    subst h1
    constructor
    · unfold is_feasible_status
      by_cases hobj : obj > -(1 / 1000)
      · simp [hobj]
      · simp [hobj]
    · intro hobj
      unfold is_feasible_status
      simp only [decide_eq_false hobj, if_pos rfl, ite_true, ite_false]
  · intro h2
    subst h2
    unfold is_feasible_status
    simp
  · intro h1 h2
    unfold is_feasible_status
    simp [h1, h2]

/-- Witness for claim C1 at concrete statuses. -/
theorem claim_C1_witness :
    is_feasible_status 1 0 = Except.ok (true, 0) ∧
      is_feasible_status 2 0 = Except.error "Unbounded" ∧
      is_feasible_status 5 (-7) = Except.ok (true, 0) := by
  refine ⟨?_, (claim_C1 2 0).2.1 rfl, (claim_C1 5 (-7)).2.2 (by decide) (by decide)⟩
  have h := ((claim_C1 1 0).1 rfl).1.mpr (by norm_num)
  exact h

/-!
## Claim C3: routing arcs built inside a depot subset

`sync_model_builder::build_routing_partition` builds, for the subset of depot
`l`, arcs between the positions `i ≠ j` of the subset's operation list, with

* outer guard: the origin is not the depot-return operation `n_depots + l`;
* inner guard: the destination is not the depot-departure operation `l`, and
  the pair is not (departure, return).

The arc resources (distance and time) do not influence which arcs exist, so
the embedding keeps only the `(origin, destination)` pairs, in build order.
-/

/-- The arc pairs built by `sync_model_builder::build_routing_partition` for
the subset of depot `l`, whose operation list is `r` (`n_depots` is `D`). -/
def build_routing_arcs (D l : ℕ) (r : List ℕ) : List (ℕ × ℕ) :=
  (List.range r.length).flatMap fun i =>
    let oi := r.getD i 0
    if oi = D + l then []
    else
      (List.range r.length).filterMap fun j =>
        if i ≠ j then
          let oj := r.getD j 0
          if oj ≠ l ∧ ¬(oj = D + l ∧ oi = l) then some (oi, oj) else none
        else none

/-- Claim C3 (as stated) says an arc `(i, j)` exists iff `i ≠ j`,
`j ≠ O_k^+` and `(i, j) ≠ (O_k^-, O_k^+)`.  Refutation: with one depot
(`D = 1`, `l = 0`, subset `[0, 1, 2]`, departure `0`, return `1`) the pair
`(0, 1)` satisfies all three conditions, yet the builder never creates it
(the source also excludes (departure, return) and every arc leaving the
return). -/
theorem claim_C3_counterexample :
    (0, 1) ∉ build_routing_arcs 1 0 [0, 1, 2] ∧
      (0 : ℕ) ≠ 1 ∧ (1 : ℕ) ≠ 0 ∧ ((0 : ℕ), (1 : ℕ)) ≠ ((1 : ℕ), (0 : ℕ)) := by
  decide

/-- Claim C3, amended: inside the subset of depot `l` (with operation list
`r`, departure `l`, return `D + l`), an arc from `a` to `b` exists iff
`a, b ∈ r`, `a ≠ b`, `a` is not the return, `b` is not the departure, and
`(a, b)` is not the (departure, return) pair. -/
theorem claim_C3 (D l : ℕ) (r : List ℕ) (hnd : r.Nodup) (a b : ℕ) :
    (a, b) ∈ build_routing_arcs D l r ↔
      a ∈ r ∧ b ∈ r ∧ a ≠ b ∧ a ≠ D + l ∧ b ≠ l ∧ ¬(a = l ∧ b = D + l) := by
  unfold build_routing_arcs
  constructor
  · intro hmem
    obtain ⟨i, hi, hinner⟩ := List.mem_flatMap.mp hmem
    have hilen : i < r.length := List.mem_range.mp hi
    by_cases hoi : r.getD i 0 = D + l
    · simp only [hoi, if_pos rfl] at hinner
      cases hinner
    · simp only [if_neg hoi] at hinner
      obtain ⟨j, hj, hcond⟩ := List.mem_filterMap.mp hinner
      have hjlen : j < r.length := List.mem_range.mp hj
      by_cases hij : i ≠ j
      · simp only [if_pos hij] at hcond
        by_cases hc : r.getD j 0 ≠ l ∧ ¬(r.getD j 0 = D + l ∧ r.getD i 0 = l)
        · simp only [if_pos hc, Option.some.injEq, Prod.mk.injEq] at hcond
          obtain ⟨ha, hb⟩ := hcond
          rw [List.getD_eq_getElem r 0 hilen] at ha hoi hc
          rw [List.getD_eq_getElem r 0 hjlen] at hb hc
          subst ha
          subst hb
          refine ⟨List.getElem_mem hilen, List.getElem_mem hjlen, ?_, hoi,
            hc.1, fun h => hc.2 ⟨h.2, h.1⟩⟩
          intro hab
          exact hij ((List.Nodup.getElem_inj_iff hnd).mp hab)
        · simp only [if_neg hc] at hcond
          cases hcond
      · simp only [if_neg hij] at hcond
        cases hcond
  · rintro ⟨ha, hb, hab, haret, hbdep, hpair⟩
    obtain ⟨i, hilen, hieq⟩ := List.mem_iff_getElem.mp ha
    obtain ⟨j, hjlen, hjeq⟩ := List.mem_iff_getElem.mp hb
    refine List.mem_flatMap.mpr ⟨i, List.mem_range.mpr hilen, ?_⟩
    have hoi : r.getD i 0 = a := by rw [List.getD_eq_getElem r 0 hilen, hieq]
    have hoj : r.getD j 0 = b := by rw [List.getD_eq_getElem r 0 hjlen, hjeq]
    have hoia : ¬(r.getD i 0 = D + l) := by rw [hoi]; exact haret
    simp only [if_neg hoia]
    refine List.mem_filterMap.mpr ⟨j, List.mem_range.mpr hjlen, ?_⟩
    have hij : i ≠ j := by
      intro h
      subst h
      exact hab (hieq.symm.trans hjeq)
    rw [if_pos hij, hoi, hoj,
      if_pos (⟨hbdep, fun h => hpair ⟨h.2, h.1⟩⟩ :
        b ≠ l ∧ ¬(b = D + l ∧ a = l))]

/-- Witness for the amended claim C3 at a concrete input: with one depot and
subset `[0, 1, 2]`, the arc `(2, 1)` (visit to return) exists. -/
theorem claim_C3_witness :
    [0, 1, 2].Nodup ∧ (2, 1) ∈ build_routing_arcs 1 0 [0, 1, 2] := by
  have hnd : [0, 1, 2].Nodup := by decide
  refine ⟨hnd, (claim_C3 1 0 [0, 1, 2] hnd 2 1).mpr ?_⟩
  decide

/-!
## Claim C4: objective coefficients of the β block

`ctsp_sync_checker::x_2_beta_obj_` sets, for every routing arc index `i`, the
objective coefficient of the β column: arcs whose head `t = arc.j_` satisfies
`t >= 2 * n_depots` (a customer-visit head, given the operation numbering
departures `[0, D)`, returns `[D, 2D)`, visits `[2D, …)`) get
`truncate_(t_e * truncate_(x_e))` (zeroed when `|x_e| <= tol`), every other
arc gets the constant `1E100`.
-/

/-- `ctsp_sync_checker::x_2_beta_obj_`: the coefficient list, one entry per
routing arc, in arc order.  `arcs` holds the `(tail, head)` pairs, `times`
the travel times `t_e`, `x` the routing solution. -/
def x_2_beta_obj (D : ℕ) (arcs : List (ℕ × ℕ)) (times x : List ℚ) : List ℚ :=
  (List.range arcs.length).map fun i =>
    let head := (arcs.getD i (0, 0)).2
    if 2 * D ≤ head then
      let val := x.getD i 0
      if |val| > checker_tol then truncate (times.getD i 0 * truncate val)
      else 0
    else 10 ^ 100

/-- The coefficient list claim C4 describes: the truncated product when the
head of the arc is a *return* operation (id in `[D, 2D)`), the constant
`1E100` otherwise. -/
def beta_obj_claimed (D : ℕ) (arcs : List (ℕ × ℕ)) (times x : List ℚ) :
    List ℚ :=
  (List.range arcs.length).map fun i =>
    let head := (arcs.getD i (0, 0)).2
    if D ≤ head ∧ head < 2 * D then
      let val := x.getD i 0
      if |val| > checker_tol then times.getD i 0 * truncate val else 0
    else 10 ^ 100

theorem truncate_one : truncate 1 = 1 := by
  unfold truncate cpp_round
  norm_num

theorem truncate_five : truncate 5 = 5 := by
  unfold truncate cpp_round
  norm_num

/-- Claim C4 (as stated) is refuted on one depot with the single routing arc
`(2, 1)` (visit to return), `t_e = 5`, `x_e = 1`: its head `1` is the return
operation, yet the source assigns the coefficient `1E100` (the source's test
`head ≥ 2 * n_depots` selects customer-visit heads, not return heads), while
the claim prescribes `t_e * trunc(x_e) = 5`. -/
theorem claim_C4_counterexample :
    x_2_beta_obj 1 [(2, 1)] [5] [1] = [10 ^ 100] ∧
      beta_obj_claimed 1 [(2, 1)] [5] [1] = [5] ∧
      (10 ^ 100 : ℚ) ≠ 5 := by
  refine ⟨?_, ?_, by norm_num⟩
  · unfold x_2_beta_obj
    rw [show List.range ([((2 : ℕ), (1 : ℕ))].length) = [0] from rfl]
    simp
  · unfold beta_obj_claimed
    rw [show List.range ([((2 : ℕ), (1 : ℕ))].length) = [0] from rfl]
    simp only [List.map_cons, List.map_nil]
    norm_num [checker_tol, truncate_one]

/-- Claim C4, amended: the β objective coefficient of arc `i` is the
truncated product `truncate_(t_e * truncate_(x_e))` (zeroed when
`|x_e| ≤ tol`) when the *head of the arc is a customer-visit operation*
(id `≥ 2 * n_depots`), and the constant `1E100` otherwise (departure or
return head). -/
theorem claim_C4 (D : ℕ) (arcs : List (ℕ × ℕ)) (times x : List ℚ) (i : ℕ)
    (hi : i < arcs.length) :
    (2 * D ≤ (arcs.getD i (0, 0)).2 →
      (x_2_beta_obj D arcs times x).getD i 0 =
        if |x.getD i 0| > checker_tol then
          truncate (times.getD i 0 * truncate (x.getD i 0))
        else 0) ∧
    ((arcs.getD i (0, 0)).2 < 2 * D →
      (x_2_beta_obj D arcs times x).getD i 0 = 10 ^ 100) := by
  have hlen : i < (x_2_beta_obj D arcs times x).length := by
    simpa [x_2_beta_obj] using hi
  have hval : (x_2_beta_obj D arcs times x).getD i 0 =
      (fun k : ℕ =>
        if 2 * D ≤ (arcs.getD k (0, 0)).2 then
          if |x.getD k 0| > checker_tol then
            truncate (times.getD k 0 * truncate (x.getD k 0))
          else 0
        else 10 ^ 100) i := by
    rw [List.getD_eq_getElem _ 0 hlen]
    simp [x_2_beta_obj]
  constructor
  · intro hhead
    rw [hval]
    simp only [if_pos hhead]
  · intro hhead
    rw [hval]
    simp only [if_neg (not_le.mpr hhead)]

/-- Witness for the amended claim C4: a visit head gets the truncated
product, a return head gets `1E100`. -/
theorem claim_C4_witness :
    (x_2_beta_obj 1 [(0, 2), (2, 1)] [5, 7] [1, 1]).getD 0 0 = 5 ∧
      (x_2_beta_obj 1 [(0, 2), (2, 1)] [5, 7] [1, 1]).getD 1 0 = 10 ^ 100 := by
  constructor
  · have h := (claim_C4 1 [(0, 2), (2, 1)] [5, 7] [1, 1] 0 (by norm_num)).1
      (by norm_num)
    rw [h]
    norm_num [checker_tol, truncate_one, truncate_five]
  · exact (claim_C4 1 [(0, 2), (2, 1)] [5, 7] [1, 1] 1 (by norm_num)).2
      (by norm_num)

/-!
## Claim C5: seed set of active sync arcs for cycle search

`path_finder::update_support_graph_` collects the depot subset indices
(`triplet::k_i_`) of the routing arcs with `alpha > tol` into
`active_depot_set`, then walks the sync arcs with `gamma > tol`:

* when `arc.i_ > n_depots_` or `arc.j_ > n_depots_`, it pushes the reversed
  pair `(j, i)`;
* otherwise it pushes `(i, j)` exactly when both *vertex ids* `i` and `j`
  belong to `active_depot_set`.

Routing arcs are `(tail, head, depot-subset)` triples; sync arcs are
`(tail, head)` pairs; `alpha`/`gamma` are indexed like the arc lists.
-/

/-- The `active_depot_set` of `path_finder::update_support_graph_`: depot
subset indices of routing arcs with `alpha > tol` (membership is all the
source queries, so a list models the `std::set`). -/
def active_depots (routing : List (ℕ × ℕ × ℕ)) (alpha : List ℚ) : List ℕ :=
  ((List.range routing.length).filter fun i =>
    decide (alpha.getD i 0 > checker_tol)).map
    fun i => (routing.getD i (0, 0, 0)).2.2

/-- The `active_sync_arcs` list built by
`path_finder::update_support_graph_`, in push order. -/
def update_support_seeds (D : ℕ) (routing : List (ℕ × ℕ × ℕ))
    (sync : List (ℕ × ℕ)) (alpha gamma : List ℚ) : List (ℕ × ℕ) :=
  let ads := active_depots routing alpha
  (List.range sync.length).flatMap fun idx =>
    if gamma.getD idx 0 > checker_tol then
      let a := sync.getD idx (0, 0)
      if D < a.1 ∨ D < a.2 then [(a.2, a.1)]
      else if a.1 ∈ ads ∧ a.2 ∈ ads then [(a.1, a.2)] else []
    else []

/-- The seed set claim C5 describes: reversed pair when some endpoint is not
a depot vertex (an id `≥ 2 * n_depots`, since departures are `[0, D)` and
returns `[D, 2D)`); otherwise `(i, j)` exactly when the *depots* of the two
endpoints both have an active routing arc. -/
def seeds_claimed (D : ℕ) (routing : List (ℕ × ℕ × ℕ))
    (sync : List (ℕ × ℕ)) (alpha gamma : List ℚ) : List (ℕ × ℕ) :=
  let ads := active_depots routing alpha
  (List.range sync.length).flatMap fun idx =>
    if gamma.getD idx 0 > checker_tol then
      let a := sync.getD idx (0, 0)
      if ¬(a.1 < 2 * D) ∨ ¬(a.2 < 2 * D) then [(a.2, a.1)]
      else if (if a.1 < D then a.1 else a.1 - D) ∈ ads ∧
          (if a.2 < D then a.2 else a.2 - D) ∈ ads then [(a.1, a.2)]
      else []
    else []

/-- Claim C5 (as stated) is refuted on a two-depot instance of problem
type 2: the sync arc `(3, 0)` (return of depot 1 → departure of depot 0) has
both endpoints depot vertices, and with no active routing arc the claim
prescribes an empty seed set — but the source's test `arc.i_ > n_depots_`
(`3 > 2`) misclassifies the return of depot 1 as a non-depot vertex and
pushes the reversed pair `(0, 3)`. -/
theorem claim_C5_counterexample :
    update_support_seeds 2 [] [(3, 0)] [] [1] = [(0, 3)] ∧
      seeds_claimed 2 [] [(3, 0)] [] [1] = [] ∧
      ([((0 : ℕ), (3 : ℕ))] ≠ ([] : List (ℕ × ℕ))) := by
  refine ⟨?_, ?_, by simp⟩
  · unfold update_support_seeds
    rw [show List.range ([((3 : ℕ), (0 : ℕ))].length) = [0] from rfl]
    norm_num [checker_tol]
  · unfold seeds_claimed
    rw [show List.range ([((3 : ℕ), (0 : ℕ))].length) = [0] from rfl]
    norm_num [checker_tol, active_depots]

/-- Claim C5, amended: the seed set contains exactly, for each sync arc
`(i, j)` with `gamma > tol`: the reversed pair `(j, i)` whenever `i > D` or
`j > D` (vertex *id* compared against `n_depots`, so returns of depots
`≥ 1` are also routed to this branch), and otherwise — `i ≤ D` and
`j ≤ D` — the pair `(i, j)` exactly when both vertex ids `i` and `j` occur
among the depot-subset indices of routing arcs with `alpha > tol`. -/
theorem claim_C5 (D : ℕ) (routing : List (ℕ × ℕ × ℕ)) (sync : List (ℕ × ℕ))
    (alpha gamma : List ℚ) :
    (∀ p : ℕ × ℕ,
      p ∈ update_support_seeds D routing sync alpha gamma ↔
        ∃ idx < sync.length, ∃ i j : ℕ, sync.getD idx (0, 0) = (i, j) ∧
          checker_tol < gamma.getD idx 0 ∧
          (((D < i ∨ D < j) ∧ p = (j, i)) ∨
            (i ≤ D ∧ j ≤ D ∧ i ∈ active_depots routing alpha ∧
              j ∈ active_depots routing alpha ∧ p = (i, j)))) ∧
    (∀ k : ℕ, k ∈ active_depots routing alpha ↔
      ∃ e < routing.length, checker_tol < alpha.getD e 0 ∧
        (routing.getD e (0, 0, 0)).2.2 = k) := by
  constructor
  · intro p
    unfold update_support_seeds
    simp only [List.mem_flatMap, List.mem_range]
    constructor
    · rintro ⟨idx, hidx, hbody⟩
      refine ⟨idx, hidx, (sync.getD idx (0, 0)).1, (sync.getD idx (0, 0)).2,
        rfl, ?_⟩
      by_cases hg : gamma.getD idx 0 > checker_tol
      · rw [if_pos hg] at hbody
        refine ⟨hg, ?_⟩
        by_cases hd : D < (sync.getD idx (0, 0)).1 ∨
            D < (sync.getD idx (0, 0)).2
        · rw [if_pos hd] at hbody
          exact Or.inl ⟨hd, (List.mem_singleton.mp hbody)⟩
        · rw [if_neg hd] at hbody
          push_neg at hd
          by_cases hm : (sync.getD idx (0, 0)).1 ∈ active_depots routing alpha ∧
              (sync.getD idx (0, 0)).2 ∈ active_depots routing alpha
          · rw [if_pos hm] at hbody
            exact Or.inr ⟨hd.1, hd.2, hm.1, hm.2,
              List.mem_singleton.mp hbody⟩
          · rw [if_neg hm] at hbody
            cases hbody
      · rw [if_neg hg] at hbody
        cases hbody
    · rintro ⟨idx, hidx, i, j, hij, hg, hcase⟩
      refine ⟨idx, hidx, ?_⟩
      rw [if_pos hg, hij]
      rcases hcase with ⟨hd, hp⟩ | ⟨hi, hj, hmi, hmj, hp⟩
      · rw [if_pos hd, hp]
        exact List.mem_singleton.mpr rfl
      · rw [if_neg (by push_neg; exact ⟨hi, hj⟩), if_pos ⟨hmi, hmj⟩, hp]
        exact List.mem_singleton.mpr rfl
  · intro k
    unfold active_depots
    simp only [List.mem_map, List.mem_filter, List.mem_range,
      decide_eq_true_eq]
    constructor
    · rintro ⟨e, ⟨he, ha⟩, hk⟩
      exact ⟨e, he, ha, hk⟩
    · rintro ⟨e, he, ha, hk⟩
      exact ⟨e, ⟨he, ha⟩, hk⟩

/-!
## Claim C7: duplicate-cycle removal

`path_finder::remove_repeated_cycles_` projects every cycle (a list of arc
indices) to the boolean vector of its routing arcs (indices `< n_routing_arcs`;
sync-arc indices, stored with offset `+ n_routing_arcs`, are ignored), then
sweeps the list front to back: an unmarked cycle marks every later cycle with
the same routing-arc set as redundant, a marked cycle is skipped, and the
marked cycles are dropped at the end.  Lists of `≤ 1` cycles return early.
-/

/-- The routing-arc set of a cycle: the boolean vector the source builds
(`ordered_cycles[i]`), as the set of routing-arc indices it marks. -/
def routing_key (nR : ℕ) (c : List ℕ) : Finset ℕ :=
  (c.filter fun a => decide (a < nR)).toFinset

/-- One marking pass of `remove_repeated_cycles_`: every later cycle with
routing-arc set `k` is flagged redundant. -/
def mark_later (nR : ℕ) (k : Finset ℕ) (l : List (List ℕ × Bool)) :
    List (List ℕ × Bool) :=
  l.map fun p => if routing_key nR p.1 = k then (p.1, true) else p

/-- The full front-to-back sweep of phase 2 of `remove_repeated_cycles_`:
flagged cycles are skipped, an unflagged cycle flags its later
duplicates. -/
def sweep (nR : ℕ) : List (List ℕ × Bool) → List (List ℕ × Bool)
  | [] => []
  | p :: rest =>
    if p.2 then p :: sweep nR rest
    else p :: sweep nR (mark_later nR (routing_key nR p.1) rest)
termination_by l => l.length
decreasing_by
  · simp
  · simp [mark_later]

/-- `path_finder::remove_repeated_cycles_`. -/
def remove_repeated_cycles (nR : ℕ) (cycles : List (List ℕ)) :
    List (List ℕ) :=
  if cycles.length ≤ 1 then cycles
  else
    ((sweep nR (cycles.map fun c => (c, false))).filter fun p => !p.2).map
      fun p => p.1

/-- First-occurrence deduplication by routing-arc set: the specification-level
description of the sweep. -/
def dedup_first (nR : ℕ) : List (List ℕ) → List (List ℕ)
  | [] => []
  | c :: rest =>
    c :: dedup_first nR
      (rest.filter fun c2 => decide (routing_key nR c2 ≠ routing_key nR c))
termination_by l => l.length
decreasing_by
  simp only [List.length_cons]
  exact Nat.lt_succ_of_le (List.length_filter_le _ _)

theorem sweep_nil (nR : ℕ) : sweep nR [] = [] := by
  rw [sweep]

theorem sweep_cons_false (nR : ℕ) (c : List ℕ) (rest : List (List ℕ × Bool)) :
    sweep nR ((c, false) :: rest) =
      (c, false) :: sweep nR (mark_later nR (routing_key nR c) rest) := by
  rw [sweep]
  simp

theorem sweep_cons_true (nR : ℕ) (c : List ℕ) (rest : List (List ℕ × Bool)) :
    sweep nR ((c, true) :: rest) = (c, true) :: sweep nR rest := by
  rw [sweep]
  simp

theorem dedup_first_nil (nR : ℕ) : dedup_first nR [] = [] := by
  rw [dedup_first]

theorem dedup_first_cons (nR : ℕ) (c : List ℕ) (rest : List (List ℕ)) :
    dedup_first nR (c :: rest) =
      c :: dedup_first nR (rest.filter fun c2 =>
        decide (routing_key nR c2 ≠ routing_key nR c)) := by
  rw [dedup_first]

/-- Dropping the marked entries of `mark_later` keeps exactly the unmarked
entries whose routing-arc set differs from the marking key. -/
theorem mark_later_kept (nR : ℕ) (k : Finset ℕ) :
    ∀ rest : List (List ℕ × Bool),
      ((mark_later nR k rest).filter fun p => !p.2).map (fun p => p.1) =
        ((rest.filter fun p => !p.2).map fun p => p.1).filter
          fun c2 => decide (routing_key nR c2 ≠ k) := by
  intro rest
  induction rest with
  | nil => rfl
  | cons q rest ih =>
    obtain ⟨c2, b⟩ := q
    have hml : mark_later nR k ((c2, b) :: rest) =
        (if routing_key nR c2 = k then (c2, true) else (c2, b)) ::
          mark_later nR k rest := by
      simp [mark_later]
    rw [hml]
    by_cases hk : routing_key nR c2 = k
    · rw [if_pos hk]
      cases b
      · simp only [List.filter_cons, Bool.not_true, Bool.not_false,
          Bool.false_eq_true, if_neg, if_pos, List.map_cons, List.filter_cons,
          hk, ne_eq, not_true_eq_false, decide_eq_true_eq]
        rw [if_neg (by simp)]
        exact ih
      · simp only [List.filter_cons, Bool.not_true, Bool.false_eq_true,
          if_neg]
        exact ih
    · rw [if_neg hk]
      cases b
      · simp only [List.filter_cons, Bool.not_false, if_pos, List.map_cons]
        rw [if_pos (by simp [hk])]
        exact congrArg (c2 :: ·) ih
      · simp only [List.filter_cons, Bool.not_true, Bool.false_eq_true,
          if_neg]
        exact ih

theorem sweep_kept (nR : ℕ) :
    ∀ n (l : List (List ℕ × Bool)), l.length ≤ n →
      ((sweep nR l).filter fun p => !p.2).map (fun p => p.1) =
        dedup_first nR ((l.filter fun p => !p.2).map fun p => p.1) := by
  intro n
  induction n with
  | zero =>
    intro l hl
    rw [Nat.le_zero, List.length_eq_zero] at hl
    subst hl
    rw [sweep_nil]
    simp only [List.filter_nil, List.map_nil]
    rw [dedup_first_nil]
  | succ n ih =>
    intro l hl
    match l with
    | [] =>
      rw [sweep_nil]
      simp only [List.filter_nil, List.map_nil]
      rw [dedup_first_nil]
    | (c, b) :: rest =>
      simp only [List.length_cons, Nat.succ_le_succ_iff] at hl
      cases b
      · rw [sweep_cons_false]
        simp only [List.filter_cons, Bool.not_false, if_pos, List.map_cons]
        rw [ih (mark_later nR (routing_key nR c) rest)
          (by simpa [mark_later] using hl)]
        rw [mark_later_kept, dedup_first_cons]
      · rw [sweep_cons_true]
        simp only [List.filter_cons, Bool.not_true, Bool.false_eq_true,
          if_neg]
        exact ih rest hl

theorem dedup_first_props (nR : ℕ) :
    ∀ n (l : List (List ℕ)), l.length ≤ n →
      (∀ c ∈ dedup_first nR l, c ∈ l) ∧
      (dedup_first nR l).Pairwise
        (fun a b => routing_key nR a ≠ routing_key nR b) ∧
      (∀ c ∈ l, ∃ d ∈ dedup_first nR l, routing_key nR d = routing_key nR c) := by
  intro n
  induction n with
  | zero =>
    intro l hl
    rw [Nat.le_zero, List.length_eq_zero] at hl
    subst hl
    refine ⟨by rw [dedup_first_nil]; simp, by rw [dedup_first_nil]; simp,
      by simp⟩
  | succ n ih =>
    intro l hl
    match l with
    | [] =>
      refine ⟨by rw [dedup_first_nil]; simp, by rw [dedup_first_nil]; simp,
        by simp⟩
    | c :: rest =>
      simp only [List.length_cons, Nat.succ_le_succ_iff] at hl
      have heq := dedup_first_cons nR c rest
      set rest' := rest.filter fun c2 =>
        decide (routing_key nR c2 ≠ routing_key nR c) with hrest'
      have hlen : rest'.length ≤ n :=
        le_trans (List.length_filter_le _ _) hl
      obtain ⟨ih1, ih2, ih3⟩ := ih rest' hlen
      refine ⟨?_, ?_, ?_⟩
      · intro d hd
        rw [heq] at hd
        rcases List.mem_cons.mp hd with h | h
        · simp [h]
        · exact List.mem_cons_of_mem _
            (List.mem_of_mem_filter (ih1 d h))
      · rw [heq]
        refine List.Pairwise.cons ?_ ih2
        intro b hb
        have hbmem := ih1 b hb
        have := List.of_mem_filter hbmem
        simp only [decide_eq_true_eq] at this
        exact fun hcb => this hcb.symm
      · intro u hu
        rcases List.mem_cons.mp hu with h | h
        · subst h
          exact ⟨u, by rw [heq]; simp, rfl⟩
        · by_cases hk : routing_key nR u = routing_key nR c
          · exact ⟨c, by rw [heq]; simp, hk.symm⟩
          · have hu' : u ∈ rest' := by
              rw [hrest']
              exact List.mem_filter.mpr ⟨h, by simpa using hk⟩
            obtain ⟨d, hd, hdk⟩ := ih3 u hu'
            exact ⟨d, by rw [heq]; exact List.mem_cons_of_mem _ hd, hdk⟩

theorem map_false_filter_map (cycles : List (List ℕ)) :
    ((cycles.map fun c => (c, false)).filter fun p => !p.2).map
      (fun p => p.1) = cycles := by
  induction cycles with
  | nil => rfl
  | cons c rest ih =>
    simp only [List.map_cons, List.filter_cons, Bool.not_false, if_pos,
      List.map_cons]
    exact congrArg (c :: ·) ih

/-- Claim C7: after `remove_repeated_cycles_`, no two returned cycles share
the same routing-arc set, every returned cycle is one of the input cycles,
and every input cycle's routing-arc set is represented by some returned
cycle. -/
theorem claim_C7 (nR : ℕ) (cycles : List (List ℕ)) :
    (∀ c ∈ remove_repeated_cycles nR cycles, c ∈ cycles) ∧
      (remove_repeated_cycles nR cycles).Pairwise
        (fun a b => routing_key nR a ≠ routing_key nR b) ∧
      (∀ c ∈ cycles, ∃ d ∈ remove_repeated_cycles nR cycles,
        routing_key nR d = routing_key nR c) := by
  unfold remove_repeated_cycles
  by_cases hshort : cycles.length ≤ 1
  · rw [if_pos hshort]
    refine ⟨fun c hc => hc, ?_, fun c hc => ⟨c, hc, rfl⟩⟩
    match cycles with
    | [] => exact List.Pairwise.nil
    | [c] => exact List.pairwise_singleton _ c
    | c :: d :: rest => simp at hshort
  · rw [if_neg hshort]
    rw [sweep_kept nR (cycles.map fun c => (c, false)).length _ le_rfl,
      map_false_filter_map cycles]
    exact dedup_first_props nR cycles.length cycles le_rfl

/-!
## Claim C6: the schedule ordering respects travel times

`conTSP2_scheduling::var_2_schedule_` groups the operations of each depot (in
ascending operation id, with entries `(id, (arrival = 0, start = s[id]))`),
sorts them by ascending start with `std::sort` and the comparator
`a.second.second < b.second.second`, moves the depot return (id in
`[n_depots, 2*n_depots)`) to the last position, and then asserts
`s[cur] >= s[prev] + travel_time(prev, cur) - 1E-6` for every consecutive
pair.

`std::sort` leaves the order of tied elements unspecified; libstdc++ sorts
ranges shorter than 16 elements with a stable insertion sort, which the
embedding models with an explicit insertion sort (stable: a later element is
placed after earlier elements with an equal start).
-/

/-- A scheduling entry `operation_info`: `(operation id, (arrival, start))`. -/
abbrev op_entry : Type := ℕ × ℚ × ℚ

/-- Stable insertion of an entry by ascending start value. -/
def insert_entry (x : op_entry) : List op_entry → List op_entry
  | [] => [x]
  | y :: t => if y.2.2 ≤ x.2.2 then y :: insert_entry x t else x :: y :: t

/-- The sort of `var_2_schedule_`: by ascending start value, stable. -/
def sort_entries (l : List op_entry) : List op_entry :=
  l.foldl (fun acc x => insert_entry x acc) []

/-- The per-depot entry list before sorting: operations of depot `k` in
ascending id, each with arrival `0` and start `s[id]`. -/
def depot_entries (n_ops k : ℕ) (op2depot : ℕ → ℕ) (s : List ℚ) :
    List op_entry :=
  ((List.range n_ops).filter fun i => decide (op2depot i = k)).map
    fun i => (i, (0 : ℚ), s.getD i 0)

/-- The index of the first depot-return entry (`delivery_pos` search of
`var_2_schedule_`); the list length when there is none. -/
def find_return_pos (D : ℕ) (l : List op_entry) : ℕ :=
  l.findIdx fun e => decide (D ≤ e.1) && decide (e.1 < 2 * D)

/-- The swap moving the depot return to the last position.  When no return is
found the source leaves `delivery_pos = 0` (swapping the first entry to the
back); when the found position is already last, nothing moves. -/
def move_return_entries (D : ℕ) (l : List op_entry) : List op_entry :=
  let p := find_return_pos D l
  let dp := if p < l.length then p else 0
  if dp < l.length - 1 then
    let last := l.getD (l.length - 1) (0, 0, 0)
    let e := l.getD dp (0, 0, 0)
    (l.set dp last).set (l.length - 1) e
  else l

/-- The ordered entry list of one depot: group, sort by start, move the
return last. -/
def ordered_entries (D n_ops k : ℕ) (op2depot : ℕ → ℕ) (s : List ℚ) :
    List op_entry :=
  move_return_entries D (sort_entries (depot_entries n_ops k op2depot s))

/-- The assertion of `var_2_schedule_` along consecutive scheduled pairs:
`s[cur] ≥ s[prev] + travel_time(prev, cur) - 1E-6`. -/
def travel_asserts (t : ℕ → ℕ → ℚ) (s : List ℚ) (ids : List ℕ) : Prop :=
  List.Chain' (fun p c => s.getD p 0 + t p c - 1 / 1000000 ≤ s.getD c 0) ids

theorem mem_insert_entry (x a : op_entry) :
    ∀ l : List op_entry, a ∈ insert_entry x l ↔ a = x ∨ a ∈ l := by
  intro l
  induction l with
  | nil => simp [insert_entry]
  | cons y t ih =>
    by_cases h : y.2.2 ≤ x.2.2
    · rw [insert_entry, if_pos h]
      simp only [List.mem_cons, ih]
      tauto
    · rw [insert_entry, if_neg h]
      simp only [List.mem_cons]

theorem insert_entry_perm (x : op_entry) :
    ∀ l : List op_entry, (insert_entry x l).Perm (x :: l) := by
  intro l
  induction l with
  | nil => simp [insert_entry]
  | cons y t ih =>
    by_cases h : y.2.2 ≤ x.2.2
    · simp only [insert_entry, if_pos h]
      exact (ih.cons y).trans (List.Perm.swap x y t)
    · simp only [insert_entry, if_neg h]
      exact List.Perm.refl _

theorem insert_entry_pairwise (x : op_entry) :
    ∀ l : List op_entry, l.Pairwise (fun a b => a.2.2 ≤ b.2.2) →
      (insert_entry x l).Pairwise (fun a b => a.2.2 ≤ b.2.2) := by
  intro l
  induction l with
  | nil => simp [insert_entry]
  | cons y t ih =>
    intro hp
    obtain ⟨hy, ht⟩ := List.pairwise_cons.mp hp
    by_cases h : y.2.2 ≤ x.2.2
    · simp only [insert_entry, if_pos h]
      refine List.pairwise_cons.mpr ⟨?_, ih ht⟩
      intro b hb
      rcases (mem_insert_entry x b t).mp hb with hbx | hbt
      · subst hbx
        exact h
      · exact hy b hbt
    · simp only [insert_entry, if_neg h]
      have hxy : x.2.2 ≤ y.2.2 := le_of_not_le h
      refine List.pairwise_cons.mpr ⟨?_, hp⟩
      intro b hb
      rcases List.mem_cons.mp hb with hby | hbt
      · subst hby
        exact hxy
      · exact le_trans hxy (hy b hbt)

theorem sort_entries_perm (l : List op_entry) : (sort_entries l).Perm l := by
  suffices h : ∀ acc : List op_entry,
      (l.foldl (fun acc x => insert_entry x acc) acc).Perm (acc ++ l) by
    simpa [sort_entries] using h []
  induction l with
  | nil => simp
  | cons x t ih =>
    intro acc
    simp only [List.foldl_cons]
    refine (ih (insert_entry x acc)).trans ?_
    have h1 : (insert_entry x acc ++ t).Perm ((x :: acc) ++ t) :=
      (insert_entry_perm x acc).append_right t
    refine h1.trans ?_
    simp only [List.cons_append]
    exact (List.perm_middle).symm

theorem sort_entries_pairwise (l : List op_entry) :
    (sort_entries l).Pairwise (fun a b => a.2.2 ≤ b.2.2) := by
  suffices h : ∀ acc : List op_entry,
      acc.Pairwise (fun a b => a.2.2 ≤ b.2.2) →
      (l.foldl (fun acc x => insert_entry x acc) acc).Pairwise
        (fun a b => a.2.2 ≤ b.2.2) by
    exact h [] List.Pairwise.nil
  induction l with
  | nil => exact fun acc h => h
  | cons x t ih =>
    intro acc hacc
    simp only [List.foldl_cons]
    exact ih (insert_entry x acc) (insert_entry_pairwise x acc hacc)

theorem pairwise_key_antisymm {α : Type} (key : α → ℚ) :
    ∀ l : List α, l.Pairwise (fun a b => key a < key b) →
      ∀ a ∈ l, ∀ b ∈ l, key a ≤ key b → key b ≤ key a → a = b := by
  intro l
  induction l with
  | nil => simp
  | cons x t ih =>
    intro hp a ha b hb hab hba
    obtain ⟨hx, ht⟩ := List.pairwise_cons.mp hp
    rcases List.mem_cons.mp ha with rfl | hat
    · rcases List.mem_cons.mp hb with rfl | hbt
      · rfl
      · exact absurd (hx b hbt) (not_lt.mpr hba)
    · rcases List.mem_cons.mp hb with rfl | hbt
      · exact absurd (hx a hat) (not_lt.mpr hab)
      · exact ih ht a hat b hbt hab hba

theorem findIdx_append_last {α : Type} (p : α → Bool) :
    ∀ (pre : List α) (x : α), (∀ a ∈ pre, p a = false) → p x = true →
      (pre ++ [x]).findIdx p = pre.length := by
  intro pre
  induction pre with
  | nil =>
    intro x _ hx
    simp [List.findIdx_cons, hx]
  | cons a t ih =>
    intro x hall hx
    have ha : p a = false := hall a (by simp)
    simp only [List.cons_append, List.findIdx_cons, ha, cond_false,
      List.length_cons]
    rw [ih x (fun b hb => hall b (List.mem_cons_of_mem _ hb)) hx]

/-- Slack vector of the claim C6 counterexample (operations: departure `0`,
return `1`, visits `2` and `3` of one depot). -/
def c6_s : List ℚ := [0, 105, 5, 5]

/-- Travel times of the claim C6 counterexample (`arc_time_matrix_` values
along the used route `0 → 3 → 2 → 1` and for the pair `(0, 2)`). -/
def c6_t (p c : ℕ) : ℚ :=
  if p = 0 ∧ c = 3 then 5
  else if p = 3 ∧ c = 2 then 0
  else if p = 2 ∧ c = 1 then 100
  else if p = 0 ∧ c = 2 then 100
  else 0

/-- Claim C6 (as stated) is refuted: the route `0 → 3 → 2 → 1` with slacks
`(0, 5, 5, 105)` satisfies every LP constraint of the lower-bound model along
the route (`s[next] ≥ s[prev] + t`), but the visits `2` and `3` are tied at
slack `5`, the stable sort orders them `2` before `3` (the reverse of the
route), and the consecutive pair `(0, 2)` then violates the assertion:
`s[2] = 5 < s[0] + t(0,2) - 1E-6 = 100 - 1E-6`. -/
theorem claim_C6_counterexample :
    List.Chain' (fun p c => c6_s.getD p 0 + c6_t p c ≤ c6_s.getD c 0)
      [0, 3, 2, 1] ∧
    (depot_entries 4 0 (fun _ => 0) c6_s).map (fun e => e.1) = [0, 1, 2, 3] ∧
    (ordered_entries 1 4 0 (fun _ => 0) c6_s).map (fun e => e.1) =
      [0, 2, 3, 1] ∧
    ¬ travel_asserts c6_t c6_s
      ((ordered_entries 1 4 0 (fun _ => 0) c6_s).map fun e => e.1) := by
  have hdep : depot_entries 4 0 (fun _ => 0) c6_s =
      [(0, 0, 0), (1, 0, 105), (2, 0, 5), (3, 0, 5)] := by
    unfold depot_entries c6_s
    rw [show List.range 4 = [0, 1, 2, 3] from rfl]
    norm_num
  have hsort : sort_entries (depot_entries 4 0 (fun _ => 0) c6_s) =
      [(0, 0, 0), (2, 0, 5), (3, 0, 5), (1, 0, 105)] := by
    rw [hdep]
    unfold sort_entries
    simp only [List.foldl_cons, List.foldl_nil]
    norm_num [insert_entry]
  have hord : ordered_entries 1 4 0 (fun _ => 0) c6_s =
      [(0, 0, 0), (2, 0, 5), (3, 0, 5), (1, 0, 105)] := by
    unfold ordered_entries
    rw [hsort]
    unfold move_return_entries find_return_pos
    norm_num [List.findIdx_cons]
  refine ⟨?_, ?_, ?_, ?_⟩
  · unfold c6_s c6_t
    norm_num [List.chain'_cons]
  · rw [hdep]
    norm_num
  · rw [hord]
    norm_num
  · rw [hord]
    unfold travel_asserts c6_s c6_t
    norm_num [List.chain'_cons]

/-- Claim C6, amended: whenever the slacks are additionally *strictly*
increasing along the depot's route (no ties inside a depot — e.g. when every
used arc has positive travel time), the sorted order is exactly the route
order, the return is already last, and every consecutive pair satisfies the
assertion `s[cur] ≥ s[prev] + travel_time(prev, cur) - 1E-6`.  The route is
`l :: mids ++ [D + l]` (departure, visits, return), `mids` being
customer-visit operations (ids `≥ 2D`), and the depot's grouped entries are a
permutation of the route's entries. -/
theorem claim_C6 (D l n_ops : ℕ) (op2depot : ℕ → ℕ) (s : List ℚ)
    (t : ℕ → ℕ → ℚ) (mids : List ℕ)
    (hl : l < D)
    (hmids : ∀ m ∈ mids, 2 * D ≤ m)
    (hperm : (depot_entries n_ops l op2depot s).Perm
      ((l :: mids ++ [D + l]).map fun i => (i, (0 : ℚ), s.getD i 0)))
    (hchain : List.Chain' (fun p c => s.getD p 0 + t p c ≤ s.getD c 0)
      (l :: mids ++ [D + l]))
    (hstrict : List.Chain' (fun p c : ℕ => s.getD p 0 < s.getD c 0)
      (l :: mids ++ [D + l])) :
    (ordered_entries D n_ops l op2depot s).map (fun e => e.1) =
      l :: mids ++ [D + l] ∧
    travel_asserts t s ((ordered_entries D n_ops l op2depot s).map
      fun e => e.1) := by
  haveI : IsTrans ℕ (fun p c : ℕ => s.getD p 0 < s.getD c 0) :=
    ⟨fun a b c hab hbc => lt_trans hab hbc⟩
  have hpair_ids : (l :: mids ++ [D + l]).Pairwise
      (fun p c : ℕ => s.getD p 0 < s.getD c 0) :=
    List.chain'_iff_pairwise.mp hstrict
  have hpair_e : ((l :: mids ++ [D + l]).map
      fun i => ((i, (0 : ℚ), s.getD i 0) : op_entry)).Pairwise
      (fun a b : op_entry => a.2.2 < b.2.2) := by
    rw [List.pairwise_map]
    exact hpair_ids
  have hsort_eq : sort_entries (depot_entries n_ops l op2depot s) =
      (l :: mids ++ [D + l]).map fun i => (i, (0 : ℚ), s.getD i 0) := by
    refine @List.Perm.eq_of_sorted op_entry
      (fun a b : op_entry => a.2.2 ≤ b.2.2) _ _ ?_ ?_ ?_ ?_
    · intro a b ha hb hab hba
      have ha' : a ∈ (l :: mids ++ [D + l]).map
          fun i => ((i, (0 : ℚ), s.getD i 0) : op_entry) :=
        hperm.subset ((sort_entries_perm _).subset ha)
      exact pairwise_key_antisymm (fun e : op_entry => e.2.2) _ hpair_e
        a ha' b hb hab hba
    · exact sort_entries_pairwise _
    · exact hpair_e.imp fun h => le_of_lt h
    · exact (sort_entries_perm _).trans hperm
  have hshape : ((l :: mids ++ [D + l]).map
      fun i => ((i, (0 : ℚ), s.getD i 0) : op_entry)) =
      ((l :: mids).map fun i => ((i, (0 : ℚ), s.getD i 0) : op_entry)) ++
        [(D + l, (0 : ℚ), s.getD (D + l) 0)] := by
    simp
  have hfind : find_return_pos D ((l :: mids ++ [D + l]).map
      fun i => (i, (0 : ℚ), s.getD i 0)) = mids.length + 1 := by
    unfold find_return_pos
    rw [hshape, findIdx_append_last]
    · simp
    · intro a ha
      simp only [List.mem_map, List.mem_cons] at ha
      obtain ⟨i, hi, rfl⟩ := ha
      rcases hi with rfl | hi
      · have h1 : ¬ D ≤ i := not_le.mpr hl
        simp [h1]
      · have h2 : ¬ (i < 2 * D) := not_lt.mpr (hmids i hi)
        simp [h2]
    · have h1 : D ≤ D + l := Nat.le_add_right _ _
      have h2 : D + l < 2 * D := by omega
      simp [h1, h2]
  have hlen : ((l :: mids ++ [D + l]).map
      fun i => ((i, (0 : ℚ), s.getD i 0) : op_entry)).length =
      mids.length + 2 := by
    simp
  have hmove : move_return_entries D ((l :: mids ++ [D + l]).map
      fun i => (i, (0 : ℚ), s.getD i 0)) =
      (l :: mids ++ [D + l]).map fun i => (i, (0 : ℚ), s.getD i 0) := by
    unfold move_return_entries
    simp only [hfind, hlen]
    rw [if_pos (show mids.length + 1 < mids.length + 2 from by omega)]
    rw [if_neg (show ¬ (mids.length + 1 < mids.length + 2 - 1) from by omega)]
  have hids : (ordered_entries D n_ops l op2depot s).map (fun e => e.1) =
      l :: mids ++ [D + l] := by
    unfold ordered_entries
    rw [hsort_eq, hmove, List.map_map]
    have hcomp : ((fun e : op_entry => e.1) ∘
        fun i : ℕ => ((i, (0 : ℚ), s.getD i 0) : op_entry)) = id := rfl
    rw [hcomp, List.map_id]
  refine ⟨hids, ?_⟩
  rw [hids]
  unfold travel_asserts
  refine hchain.imp ?_
  intro a b h
  linarith

/-- Witness for the amended claim C6 at a concrete input: one depot, route
`0 → 2 → 1` with slacks `(0, 5, 10)` strictly increasing, travel times `5`
on the used arcs. -/
theorem claim_C6_witness :
    (ordered_entries 1 3 0 (fun _ => 0) [0, 10, 5]).map (fun e => e.1) =
      [0, 2, 1] ∧
    travel_asserts
      (fun p c => if p = 0 ∧ c = 2 then 5 else if p = 2 ∧ c = 1 then 5 else 0)
      [0, 10, 5]
      ((ordered_entries 1 3 0 (fun _ => 0) [0, 10, 5]).map fun e => e.1) := by
  have h := claim_C6 1 0 3 (fun _ => 0) [0, 10, 5]
    (fun p c => if p = 0 ∧ c = 2 then 5 else if p = 2 ∧ c = 1 then 5 else 0)
    [2] (by norm_num) (by norm_num) ?_ ?_ ?_
  · exact h
  · have hdep : depot_entries 3 0 (fun _ => 0) [0, 10, 5] =
        [(0, 0, 0), (1, 0, 10), (2, 0, 5)] := by
      unfold depot_entries
      rw [show List.range 3 = [0, 1, 2] from rfl]
      norm_num
    rw [hdep]
    have hroute : (([0] ++ [2] ++ [1 + 0]) :
        List ℕ).map (fun i => ((i, (0 : ℚ),
          ([0, 10, 5] : List ℚ).getD i 0) : op_entry)) =
        [(0, 0, 0), (2, 0, 5), (1, 0, 10)] := by
      norm_num
    simp only [List.cons_append, List.nil_append] at hroute ⊢
    rw [hroute]
    refine List.Perm.cons _ ?_
    exact List.Perm.swap _ _ _
  · norm_num [List.chain'_cons]
  · norm_num [List.chain'_cons]

/-!
## Claim C9: frame effects of `conTSP2_scheduling::solve`

`conTSP2_scheduling::solve` sets the instance name on both output objects,
runs the checker, and then touches *either* the scheduling output (feasible:
`refine_solution_` + `var_2_schedule_`) *or* the infeasibility output
(infeasible: the checker's duals plus the path finder's cycles) — never both.
The checker call is modelled by its outcome; the assertions of
`var_2_schedule_` (and its unconditional `op_times_v[0]` access) make the
feasible branch partial, modelled with `Option` (`none` = abort, no return
value at all).
-/

/-- The arrival-computation walk of `var_2_schedule_` (the loop at its end):
given the previous entry (with its possibly rewritten start) and the original
slack vector, check the assertion
`s[cur] ≥ s[prev] + travel_time(prev, cur) - 1E-6` and set
`arrival[cur] = start[prev] + travel_time`. -/
def walk_arrivals (s : List ℚ) (t : ℕ → ℕ → ℚ) :
    op_entry → List op_entry → Option (List op_entry)
  | _, [] => some []
  | prev, cur :: rest =>
    if s.getD cur.1 0 < s.getD prev.1 0 + t prev.1 cur.1 - 1 / 1000000 then
      none
    else
      let cur2 : op_entry := (cur.1, prev.2.2 + t prev.1 cur.1, cur.2.2)
      match walk_arrivals s t cur2 rest with
      | none => none
      | some tail => some (cur2 :: tail)

/-- The renaming pass of `var_2_schedule_`: interior entries get
`customer + 1`, the first and last entries get id `1`. -/
def rename_entries (op2customer : ℕ → ℕ) (l : List op_entry) :
    List op_entry :=
  (List.range l.length).map fun i =>
    let e := l.getD i (0, 0, 0)
    if i = 0 ∨ i = l.length - 1 then (1, e.2)
    else (op2customer e.1 + 1, e.2)

/-- One depot's schedule as built by `var_2_schedule_`: order the entries,
set the first start to `0`, compute arrivals (checking the travel
assertions), rename.  `none` models an aborted run (failed assertion, or the
out-of-bounds `op_times_v[0]` access on an empty depot). -/
def depot_schedule (D n_ops k : ℕ) (op2depot op2customer : ℕ → ℕ)
    (t : ℕ → ℕ → ℚ) (s : List ℚ) : Option (List op_entry) :=
  match ordered_entries D n_ops k op2depot s with
  | [] => none
  | e0 :: rest =>
    let e02 : op_entry := (e0.1, e0.2.1, 0)
    match walk_arrivals s t e02 rest with
    | none => none
    | some tail => some (rename_entries op2customer (e02 :: tail))

/-- `conTSP2_scheduling::var_2_schedule_`: one ordered, timed and renamed
entry list per depot. -/
def var_2_schedule (D n_ops : ℕ) (op2depot op2customer : ℕ → ℕ)
    (t : ℕ → ℕ → ℚ) (s : List ℚ) : Option (List (List op_entry)) :=
  (List.range D).mapM fun k =>
    depot_schedule D n_ops k op2depot op2customer t s

/-- The scheduling output object (`sync_scheduling` plus its instance
name). -/
structure sched_out where
  sched_name : String
  entries : List (List op_entry)

/-- The infeasibility output object (`sync_infeasible`). -/
structure infeas_out where
  inf_name : String
  alpha : List ℚ
  beta : List ℚ
  gamma : List ℚ
  violated_cycles : List (List ℕ)

/-- The checker outcome observed by `conTSP2_scheduling::solve` through
`checker_.is_feasible(x, s, alpha, beta, gamma)`: either feasible with the
slack vector, or infeasible with the dual values. -/
inductive checker_outcome where
  | feasible (s : List ℚ)
  | infeasible (alpha beta gamma : List ℚ)

/-- `conTSP2_scheduling::solve`, as a transformer of the two output objects,
parameterized by the checker outcome and by the path finder (`finder`).
Returns `none` when `var_2_schedule_` aborts. -/
def conTSP2_solve (D n_ops : ℕ) (op2depot op2customer : ℕ → ℕ)
    (t : ℕ → ℕ → ℚ) (finder : List ℚ → List ℚ → List ℚ → List (List ℕ))
    (outcome : checker_outcome) (instance_name : String)
    (sch : sched_out) (inf : infeas_out) :
    Option (Bool × sched_out × infeas_out) :=
  let sch1 : sched_out := { sch with sched_name := instance_name }
  let inf1 : infeas_out := { inf with inf_name := instance_name }
  match outcome with
  | .feasible s =>
    let s2 := refine_solution D s
    match var_2_schedule D n_ops op2depot op2customer t s2 with
    | none => none
    | some entries => some (true, { sch1 with entries := entries }, inf1)
  | .infeasible a b g =>
    some (false, sch1,
      { inf1 with
        alpha := a
        beta := b
        gamma := g
        violated_cycles := finder a b g })

/-- Claim C9: when `conTSP2_scheduling::solve` reports infeasible, the
scheduling output is untouched except for its instance name (its per-depot
entry lists are exactly the input's); when it reports feasible, the
infeasibility output is untouched except for its instance name — in
particular its violated-cycles list stays as passed in (empty for a fresh
object). -/
theorem claim_C9 (D n_ops : ℕ) (op2depot op2customer : ℕ → ℕ)
    (t : ℕ → ℕ → ℚ) (finder : List ℚ → List ℚ → List ℚ → List (List ℕ))
    (instance_name : String) (sch : sched_out) (inf : infeas_out) :
    (∀ a b g : List ℚ, ∀ res : Bool × sched_out × infeas_out,
      conTSP2_solve D n_ops op2depot op2customer t finder
          (.infeasible a b g) instance_name sch inf = some res →
        res.1 = false ∧ res.2.1.entries = sch.entries ∧
          res.2.1.sched_name = instance_name) ∧
    (∀ s : List ℚ, ∀ res : Bool × sched_out × infeas_out,
      conTSP2_solve D n_ops op2depot op2customer t finder
          (.feasible s) instance_name sch inf = some res →
        res.1 = true ∧
          res.2.2 = ⟨instance_name, inf.alpha, inf.beta, inf.gamma,
            inf.violated_cycles⟩ ∧
          res.2.2.violated_cycles = inf.violated_cycles) := by
  constructor
  · intro a b g res hres
    unfold conTSP2_solve at hres
    simp only [Option.some.injEq] at hres
    subst hres
    exact ⟨rfl, rfl, rfl⟩
  · intro s res hres
    unfold conTSP2_solve at hres
    simp only at hres
    rcases hv : var_2_schedule D n_ops op2depot op2customer t
        (refine_solution D s) with _ | entries
    · rw [hv] at hres
      cases hres
    · rw [hv] at hres
      simp only [Option.some.injEq] at hres
      subst hres
      exact ⟨rfl, rfl, rfl⟩

/-- Witness for claim C9: a concrete feasible run (one depot with only its
departure and return, zero slacks and travel times) returns, and a concrete
infeasible run returns; the frame conditions then follow from `claim_C9`. -/
theorem claim_C9_witness :
    ∃ res : Bool × sched_out × infeas_out,
      conTSP2_solve 1 2 (fun _ => 0) (fun _ => 0) (fun _ _ => 0)
          (fun _ _ _ => []) (.feasible [0, 0]) "w"
          ⟨"", []⟩ ⟨"", [], [], [], []⟩ = some res ∧
        res.1 = true ∧
        res.2.2 = (⟨"w", [], [], [], []⟩ : infeas_out) ∧
        res.2.2.violated_cycles = [] := by
  have hdep : depot_entries 2 0 (fun _ => 0) (refine_solution 1 [0, 0]) =
      [(0, 0, 0), (1, 0, 0)] := by
    unfold depot_entries refine_solution
    rw [show List.range 2 = [0, 1] from rfl]
    norm_num
  have hsort : sort_entries [((0 : ℕ), (0 : ℚ), (0 : ℚ)), (1, 0, 0)] =
      [(0, 0, 0), (1, 0, 0)] := by
    unfold sort_entries
    simp only [List.foldl_cons, List.foldl_nil]
    norm_num [insert_entry]
  have hord : ordered_entries 1 2 0 (fun _ => 0) (refine_solution 1 [0, 0]) =
      [(0, 0, 0), (1, 0, 0)] := by
    unfold ordered_entries
    rw [hdep, hsort]
    unfold move_return_entries find_return_pos
    norm_num [List.findIdx_cons]
  have hwalk : walk_arrivals (refine_solution 1 [0, 0]) (fun _ _ => 0)
      ((0 : ℕ), (0 : ℚ), (0 : ℚ)) [((1 : ℕ), (0 : ℚ), (0 : ℚ))] =
      some [(1, 0, 0)] := by
    unfold refine_solution
    norm_num [walk_arrivals]
  have hsched : var_2_schedule 1 2 (fun _ => 0) (fun _ => 0) (fun _ _ => 0)
      (refine_solution 1 [0, 0]) = some [[(1, 0, 0), (1, 0, 0)]] := by
    unfold var_2_schedule
    rw [show List.range 1 = [0] from rfl]
    simp only [List.mapM_cons, List.mapM_nil]
    unfold depot_schedule
    rw [hord]
    simp only [hwalk]
    unfold rename_entries
    rw [show List.range ([((0 : ℕ), (0 : ℚ), (0 : ℚ)),
      ((1 : ℕ), (0 : ℚ), (0 : ℚ))].length) = [0, 1] from rfl]
    norm_num
  refine ⟨(true, ⟨"w", [[(1, 0, 0), (1, 0, 0)]]⟩,
    ⟨"w", [], [], [], []⟩), ?_, ?_⟩
  · simp only [conTSP2_solve, hsched]
  · exact (claim_C9 1 2 (fun _ => 0) (fun _ => 0) (fun _ _ => 0)
      (fun _ _ _ => []) "w" ⟨"", []⟩ ⟨"", [], [], [], []⟩).2 [0, 0] _
      (by simp only [conTSP2_solve, hsched])

/-!
## Claim C10: the DFS stack stays within its preallocated capacity

`search_graph::DFS(s, t, p)` runs an iterative DFS over a stack preallocated
with capacity `V * (V - 1)` (`node_info_stack::node_info_stack(n)` builds a
vector of `n * (n - 1)` slots, `search_graph(V)` passes `n = V`).  Every
`push` increments `top_` and writes `at(top_)`, so the claim is that the
stack *size* never exceeds `V * (V - 1)`.  A step of the loop pops one entry
and then pushes its unvisited successors one by one, so the stack size at any
push inside a step is at most the size after the whole step; bounding every
reachable state bounds `top_` at every push (the initial `push(s)` is state
`k = 0`).

The graph is modelled by its successor lists `g` (the `is_arc` guard makes
them duplicate-free; `succ_list(V + 1)` admits vertex ids up to `V`, so ids
live below `n = V + 1`).  A stack entry carries the vertex id, the path and
the visited set (`push` inserts the pushed id into the copied visited set).
-/

/-- A `node_info` stack entry: vertex id, path from the source, visited
set. -/
structure dfs_entry where
  id : ℕ
  path : List ℕ
  visited : Finset ℕ

/-- The stack contents after `stack_.clear(); stack_.push(s)` at the top of
`search_graph::DFS` (head = top of stack). -/
def dfs_init (s : ℕ) : List dfs_entry :=
  [⟨s, [], {s}⟩]

/-- One iteration of the `while (!stack_.empty())` loop of
`search_graph::DFS`: pop the top entry, extend its path; if the target is
reached record the path, otherwise push every unvisited successor (in
successor order, so the last pushed one ends on top). -/
def dfs_step (g : ℕ → List ℕ) (t : ℕ) :
    List dfs_entry × List (List ℕ) → List dfs_entry × List (List ℕ)
  | ([], out) => ([], out)
  | (e :: rest, out) =>
    let path2 := e.path ++ [e.id]
    if e.id = t then (rest, out ++ [path2])
    else
      (((((g e.id).filter fun j => decide (j ∉ e.visited)).map
          fun j => (⟨j, path2, insert j e.visited⟩ : dfs_entry)).reverse)
        ++ rest, out)

/-- A well-formed stack entry over the id universe `[0, n)`. -/
def entry_ok (n : ℕ) (e : dfs_entry) : Prop :=
  e.id ∈ e.visited ∧ e.visited ⊆ Finset.range n

/-- The pending batches below the top batch of the DFS stack: batches of
entries at strictly decreasing visited-set sizes `e < d`, each batch at size
`e` holding at most `n - e` entries (one of its entries was already popped to
create the deeper batches above it). -/
inductive chain_inv (n : ℕ) : ℕ → List dfs_entry → Prop
  | nil : ∀ d, chain_inv n d []
  | batch : ∀ (d e : ℕ) (b rest : List dfs_entry), 2 ≤ e → e < d → b ≠ [] →
      (∀ x ∈ b, entry_ok n x ∧ x.visited.card = e) →
      b.length + e ≤ n →
      chain_inv n e rest →
      chain_inv n d (b ++ rest)

/-- The DFS stack invariant: empty, the initial single root entry, or a
nonempty top batch (at most `n + 1 - j` entries of visited-set size `j`)
over a chain of older batches. -/
def stack_inv (n : ℕ) (stack : List dfs_entry) : Prop :=
  stack = [] ∨
  (∃ x : dfs_entry, stack = [x] ∧ entry_ok n x ∧ x.visited.card = 1) ∨
  (∃ (j : ℕ) (b rest : List dfs_entry), stack = b ++ rest ∧ 2 ≤ j ∧ j ≤ n ∧
    b ≠ [] ∧ (∀ x ∈ b, entry_ok n x ∧ x.visited.card = j) ∧
    b.length + j ≤ n + 1 ∧ chain_inv n j rest)

theorem chain_inv_mono (n : ℕ) :
    ∀ d d2 (l : List dfs_entry), chain_inv n d l → d ≤ d2 →
      chain_inv n d2 l := by
  intro d d2 l h hd
  cases h with
  | nil => exact chain_inv.nil d2
  | batch d e b rest he hed hb hok hlen hrest =>
    exact chain_inv.batch d2 e b rest he (lt_of_lt_of_le hed hd) hb hok
      hlen hrest

theorem chain_inv_stack (n : ℕ) :
    ∀ d (l : List dfs_entry), chain_inv n d l → d ≤ n + 1 →
      stack_inv n l := by
  intro d l h hd
  cases h with
  | nil => exact Or.inl rfl
  | batch d e b rest he hed hb hok hlen hrest =>
    refine Or.inr (Or.inr ⟨e, b, rest, rfl, he, ?_, hb, hok, ?_, hrest⟩)
    · omega
    · omega

theorem chain_inv_length (n : ℕ) :
    ∀ d (l : List dfs_entry), chain_inv n d l →
      ∀ c, d ≤ c + 2 → l.length ≤ c * (n - 2) := by
  intro d l h
  induction h with
  | nil => intro c _; simp
  | batch d e b rest he hed hb hok hlen hrest ih =>
    intro c hc
    have hc1 : 1 ≤ c := by omega
    obtain ⟨c2, rfl⟩ : ∃ c2, c = c2 + 1 := ⟨c - 1, by omega⟩
    have h1 : rest.length ≤ c2 * (n - 2) := ih c2 (by omega)
    have h2 : b.length ≤ n - 2 := by omega
    calc (b ++ rest).length = b.length + rest.length := by
          rw [List.length_append]
      _ ≤ (n - 2) + c2 * (n - 2) := Nat.add_le_add h2 h1
      _ = (c2 + 1) * (n - 2) := by ring


theorem stack_inv_length (n : ℕ) (hn : 3 ≤ n) (stack : List dfs_entry)
    (h : stack_inv n stack) : stack.length ≤ (n - 1) * (n - 2) := by
  rcases h with rfl | ⟨x, rfl, _, _⟩ | ⟨j, b, rest, rfl, hj2, hjn, _, _, hlen, hchain⟩
  · simp
  · have : 1 ≤ (n - 1) * (n - 2) := by
      have h1 : 1 ≤ n - 1 := by omega
      have h2 : 1 ≤ n - 2 := by omega
      calc 1 = 1 * 1 := rfl
        _ ≤ (n - 1) * (n - 2) := Nat.mul_le_mul h1 h2
    simpa using this
  · have hrest : rest.length ≤ (j - 2) * (n - 2) :=
      chain_inv_length n j rest hchain (j - 2) (by omega)
    have hb : b.length ≤ n + 1 - j := by omega
    rw [List.length_append]
    have hkey : (n + 1 - j) + (j - 2) * (n - 2) ≤ (n - 1) * (n - 2) := by
      by_cases hj : j = 2
      · subst hj
        have h1 : 1 ≤ n - 2 := by omega
        have h2 : n + 1 - 2 ≤ (n - 1) * 1 + (n - 1) * (n - 3) + 0 := by omega
        have h3 : (n - 1) * (n - 2) = (n - 1) * 1 + (n - 1) * (n - 3) := by
          rw [← Nat.mul_add]
          congr 1
          omega
        omega
      · have hj3 : 3 ≤ j := by omega
        have h1 : n + 1 - j ≤ n - 2 := by omega
        have h2 : (n + 1 - j) + (j - 2) * (n - 2) ≤
            (n - 2) + (j - 2) * (n - 2) := by omega
        have h3 : (n - 2) + (j - 2) * (n - 2) = (j - 1) * (n - 2) := by
          obtain ⟨j3, rfl⟩ : ∃ j3, j = j3 + 3 := ⟨j - 3, by omega⟩
          have e1 : j3 + 3 - 2 = j3 + 1 := by omega
          have e2 : j3 + 3 - 1 = j3 + 2 := by omega
          rw [e1, e2]
          ring
        have h4 : (j - 1) * (n - 2) ≤ (n - 1) * (n - 2) :=
          Nat.mul_le_mul_right _ (by omega)
        omega
    omega

theorem children_length (n : ℕ) (succ : List ℕ) (hnd : succ.Nodup)
    (htgt : ∀ j ∈ succ, j < n) (visited : Finset ℕ)
    (hvis : visited ⊆ Finset.range n) :
    (succ.filter fun j => decide (j ∉ visited)).length + visited.card ≤ n := by
  set ch := succ.filter fun j => decide (j ∉ visited) with hch
  have hchnd : ch.Nodup := hnd.filter _
  have hlen : ch.length = ch.toFinset.card := by
    rw [List.toFinset_card_of_nodup hchnd]
  have hsub : ch.toFinset ⊆ Finset.range n \ visited := by
    intro a ha
    rw [List.mem_toFinset] at ha
    rw [hch] at ha
    have h1 := List.mem_of_mem_filter ha
    have h2 := List.of_mem_filter ha
    simp only [decide_eq_true_eq] at h2
    exact Finset.mem_sdiff.mpr ⟨Finset.mem_range.mpr (htgt a h1), h2⟩
  have hcard : ch.toFinset.card ≤ (Finset.range n \ visited).card :=
    Finset.card_le_card hsub
  have hsd : (Finset.range n \ visited).card = n - visited.card := by
    rw [Finset.card_sdiff hvis, Finset.card_range]
  have hvc : visited.card ≤ n := by
    calc visited.card ≤ (Finset.range n).card := Finset.card_le_card hvis
      _ = n := Finset.card_range n
  omega

theorem dfs_step_cons (g : ℕ → List ℕ) (t : ℕ) (e : dfs_entry)
    (rest : List dfs_entry) (out : List (List ℕ)) :
    dfs_step g t (e :: rest, out) =
      if e.id = t then (rest, out ++ [e.path ++ [e.id]])
      else
        ((((g e.id).filter fun j => decide (j ∉ e.visited)).map
            fun j => (⟨j, e.path ++ [e.id], insert j e.visited⟩ :
              dfs_entry)).reverse ++ rest, out) := by
  rfl

/-- Every entry pushed for an unvisited successor of a well-formed entry is
well formed, one level deeper. -/
theorem pushed_entry_ok (n : ℕ) (g : ℕ → List ℕ)
    (hg_tgt : ∀ i, ∀ j ∈ g i, j < n) (e : dfs_entry) (hok : entry_ok n e)
    (x : dfs_entry)
    (hx : x ∈ (((g e.id).filter fun j => decide (j ∉ e.visited)).map
      fun j => (⟨j, e.path ++ [e.id], insert j e.visited⟩ :
        dfs_entry)).reverse) :
    entry_ok n x ∧ x.visited.card = e.visited.card + 1 := by
  rw [List.mem_reverse] at hx
  obtain ⟨c, hc, rfl⟩ := List.mem_map.mp hx
  have hc1 := List.mem_of_mem_filter hc
  have hc2 := List.of_mem_filter hc
  simp only [decide_eq_true_eq] at hc2
  refine ⟨⟨Finset.mem_insert_self _ _, ?_⟩, ?_⟩
  · intro a ha
    rcases Finset.mem_insert.mp ha with rfl | ha2
    · exact Finset.mem_range.mpr (hg_tgt e.id a hc1)
    · exact hok.2 ha2
  · exact Finset.card_insert_of_not_mem hc2

/-- One step of the DFS loop preserves the stack invariant. -/
theorem dfs_step_preserves (n : ℕ) (hn : 3 ≤ n) (g : ℕ → List ℕ)
    (hg_nodup : ∀ i, (g i).Nodup) (hg_tgt : ∀ i, ∀ j ∈ g i, j < n)
    (t : ℕ) (stack : List dfs_entry) (out : List (List ℕ))
    (h : stack_inv n stack) :
    stack_inv n (dfs_step g t (stack, out)).1 := by
  match stack with
  | [] => exact Or.inl rfl
  | e :: rest' =>
    rw [dfs_step_cons]
    rcases h with h0 | ⟨x, hx, hxok, hxcard⟩ |
      ⟨j, b, rest, hsplit, hj2, hjn, hbne, hbok, hblen, hchain⟩
    · cases h0
    · -- root entry
      have hex : e = x ∧ rest' = [] := by
        have := hx
        rw [List.cons_eq_cons] at this
        exact ⟨this.1, this.2⟩
      obtain ⟨rfl, rfl⟩ := hex
      by_cases hid : e.id = t
      · rw [if_pos hid]
        exact Or.inl rfl
      · rw [if_neg hid]
        simp only []
        set E := (((g e.id).filter fun j => decide (j ∉ e.visited)).map
          fun j => (⟨j, e.path ++ [e.id], insert j e.visited⟩ :
            dfs_entry)).reverse with hE
        by_cases hc : E = []
        · rw [hc]
          exact Or.inl rfl
        · refine Or.inr (Or.inr ⟨2, E, [], by simp, le_refl 2,
            by omega, hc, ?_, ?_, chain_inv.nil 2⟩)
          · intro y hy
            have := pushed_entry_ok n g hg_tgt e hxok y (by rwa [← hE])
            rw [hxcard] at this
            exact this
          · have hlenE : E.length =
                ((g e.id).filter fun j => decide (j ∉ e.visited)).length := by
              rw [hE, List.length_reverse, List.length_map]
            have hcl := children_length n (g e.id) (hg_nodup e.id)
              (fun j hj => hg_tgt e.id j hj) e.visited hxok.2
            rw [hxcard] at hcl
            omega
    · -- top batch
      obtain ⟨b', rfl⟩ : ∃ b', b = e :: b' := by
        match b, hbne with
        | x :: b', _ =>
          have hhead : x = e := by
            have := hsplit
            rw [List.cons_append] at this
            exact (List.cons_eq_cons.mp this).1.symm
          exact ⟨b', by rw [hhead]⟩
      have hrest' : rest' = b' ++ rest := by
        have := hsplit
        rw [List.cons_append] at this
        exact (List.cons_eq_cons.mp this).2
      subst hrest'
      have heok : entry_ok n e ∧ e.visited.card = j := hbok e (by simp)
      by_cases hid : e.id = t
      · rw [if_pos hid]
        rcases hb' : b' with _ | ⟨y, b2⟩
        · simp only [List.nil_append]
          exact chain_inv_stack n j rest hchain (by omega)
        · refine Or.inr (Or.inr ⟨j, b', rest, by rw [hb'], hj2, hjn,
            by rw [hb']; simp, ?_, ?_, hchain⟩)
          · intro z hz
            exact hbok z (List.mem_cons_of_mem _ hz)
          · have : b'.length + 1 = (e :: b').length := by simp
            omega
      · rw [if_neg hid]
        simp only []
        set E := (((g e.id).filter fun j => decide (j ∉ e.visited)).map
          fun j => (⟨j, e.path ++ [e.id], insert j e.visited⟩ :
            dfs_entry)).reverse with hE
        have hEok : ∀ y ∈ E, entry_ok n y ∧ y.visited.card = j + 1 := by
          intro y hy
          have := pushed_entry_ok n g hg_tgt e heok.1 y (by rwa [← hE])
          rw [heok.2] at this
          exact this
        have hlenE : E.length + j ≤ n := by
          have hlE : E.length =
              ((g e.id).filter fun j => decide (j ∉ e.visited)).length := by
            rw [hE, List.length_reverse, List.length_map]
          have hcl := children_length n (g e.id) (hg_nodup e.id)
            (fun j hj => hg_tgt e.id j hj) e.visited heok.1.2
          rw [heok.2] at hcl
          omega
        have hchain2 : chain_inv n (j + 1) (b' ++ rest) := by
          rcases hb' : b' with _ | ⟨y, b2⟩
          · simp only [List.nil_append]
            exact chain_inv_mono n j (j + 1) rest hchain (by omega)
          · rw [← hb']
            refine chain_inv.batch (j + 1) j b' rest hj2 (by omega)
              (by rw [hb']; simp) ?_ ?_ hchain
            · intro z hz
              exact hbok z (List.mem_cons_of_mem _ hz)
            · have : b'.length + 1 = (e :: b').length := by simp
              omega
        by_cases hc : E = []
        · rw [hc]
          simp only [List.nil_append]
          exact chain_inv_stack n (j + 1) _ hchain2 (by omega)
        · have hjn2 : j + 1 ≤ n := by
            have h1 : 1 ≤ E.length := List.length_pos.mpr hc
            omega
          refine Or.inr (Or.inr ⟨j + 1, E, b' ++ rest,
            rfl, by omega, hjn2, hc, hEok, by omega, hchain2⟩)

theorem dfs_init_inv (n s : ℕ) (hs : s < n) : stack_inv n (dfs_init s) := by
  refine Or.inr (Or.inl ⟨⟨s, [], {s}⟩, rfl, ⟨?_, ?_⟩, ?_⟩)
  · exact Finset.mem_singleton_self s
  · intro a ha
    rw [Finset.mem_singleton] at ha
    subst ha
    exact Finset.mem_range.mpr hs
  · exact Finset.card_singleton s

/-- Claim C10 (as stated) is refuted at `V = 1`: `search_graph(1)`
preallocates a stack of capacity `1 * (1 - 1) = 0`, yet `DFS(0, 0, p)` starts
with `stack_.push(0)`, whose `at(top_)` access indexes slot `0` of the empty
vector — the stack size `1` already exceeds the capacity at the very first
push. -/
theorem claim_C10_counterexample :
    1 * (1 - 1) < (dfs_init 0).length ∧ (0 : ℕ) < 1 := by
  constructor
  · simp [dfs_init]
  · omega

/-- Claim C10, amended: for every graph on `V ≥ 2` vertices built through
`search_graph` (successor lists duplicate-free by the `is_arc` guard, vertex
ids below `V + 1`, the allocation size of `succ_list`), every source vertex
`s < V` and target `t`, and every number `k` of loop iterations of
`search_graph::DFS`, the stack size stays at most `V * (V - 1)` — so `top_`
stays strictly below the preallocated capacity at every push (within one
iteration the pushes happen after the pop, so the size at any push is at
most the size after the full iteration; the initial push is the state at
`k = 0`). -/
theorem claim_C10 (V : ℕ) (hV : 2 ≤ V) (g : ℕ → List ℕ)
    (hg_nodup : ∀ i, (g i).Nodup) (hg_tgt : ∀ i, ∀ j ∈ g i, j < V + 1)
    (s t : ℕ) (hs : s < V) (k : ℕ) :
    ((dfs_step g t)^[k] (dfs_init s, [])).1.length ≤ V * (V - 1) := by
  have hn : 3 ≤ V + 1 := by omega
  have hinv : ∀ m, stack_inv (V + 1)
      ((dfs_step g t)^[m] (dfs_init s, [])).1 := by
    intro m
    induction m with
    | zero => exact dfs_init_inv (V + 1) s (by omega)
    | succ m ih =>
      rw [Function.iterate_succ_apply']
      have := dfs_step_preserves (V + 1) hn g hg_nodup hg_tgt t
        ((dfs_step g t)^[m] (dfs_init s, [])).1
        ((dfs_step g t)^[m] (dfs_init s, [])).2 ih
      simpa using this
  have hfin := stack_inv_length (V + 1) hn _ (hinv k)
  have heq : (V + 1 - 1) * (V + 1 - 2) = V * (V - 1) := by
    have e1 : V + 1 - 1 = V := by omega
    have e2 : V + 1 - 2 = V - 1 := by omega
    rw [e1, e2]
  rwa [heq] at hfin

/-- Witness for the amended claim C10 at a concrete graph (`V = 2`, one arc
`0 → 1`, three loop iterations). -/
theorem claim_C10_witness :
    ((dfs_step (fun i => if i = 0 then [1] else []) 1)^[3]
      (dfs_init 0, [])).1.length ≤ 2 * (2 - 1) := by
  refine claim_C10 2 (by omega) (fun i => if i = 0 then [1] else [])
    ?_ ?_ 0 1 (by omega) 3
  · intro i
    by_cases hi : i = 0
    · simp [hi]
    · simp [hi]
  · intro i j hj
    simp only at hj
    by_cases hi : i = 0
    · rw [if_pos hi] at hj
      rw [List.mem_singleton] at hj
      omega
    · rw [if_neg hi] at hj
      cases hj

/-!
## Claim C8: decode/encode round trip of `model_a_solution_interface`

The static model data the two converters read (`model_a_solution_interface`):
the operation count, the number of depots, each operation's customer id
(`sync_operation::get_customer`: `0` for a departure, `N + 1` for a return,
the 1-based customer for a visit) and 0-based depot, and the routing arc
list.  The derived maps are rebuilt exactly as the builder does:

* `operations_map_` (`init_operations_map_`): only customer-visit operations
  (ids `≥ 2 * n_depots`) are entered, keyed by `(customer + 1, depot + 1)`,
  later entries overwriting earlier ones;
* `routing_arcs_pair_map_` (`pair_map::set`): arc `(i, j)` maps to its
  index, later entries overwriting earlier ones; missing pairs are `EMPTY`
  (`-1`), modelled by `none` (the source then fails its `assert(inx >= 0)`).
-/

/-- The static model data read by `model_a_solution_interface`. -/
structure model_a where
  D : ℕ
  n_ops : ℕ
  customer : ℕ → ℕ
  depot : ℕ → ℕ
  arcs : List (ℕ × ℕ)

/-- `operations_map_.at(c, d)` as rebuilt by `init_operations_map_`: the last
customer-visit operation with key `(c, d)`, `none` for an empty cell. -/
def op_map_at (M : model_a) (c d : ℕ) : Option ℕ :=
  ((List.range M.n_ops).filter fun jj => decide (2 * M.D ≤ jj) &&
    decide (M.customer jj + 1 = c) && decide (M.depot jj + 1 = d)).getLast?

/-- `routing_arcs_pair_map_.at(i, j)` as rebuilt by `pair_map::set`: the last
arc index holding `(i, j)`, `none` for `EMPTY`. -/
def pair_map_at (arcs : List (ℕ × ℕ)) (i j : ℕ) : Option ℕ :=
  ((List.range arcs.length).filter
    fun e => decide (arcs.getD e (0, 0) = (i, j))).getLast?

/-- `routing_arcs_matrix.at(a + 1, b + 1) == 1` in
`model_a_2_sync_solution`: some arc index with `x > 0.5` holds `(a, b)`. -/
def used (x : List ℚ) (arcs : List (ℕ × ℕ)) (a b : ℕ) : Bool :=
  (List.range x.length).any fun idx =>
    decide ((1 : ℚ) / 2 < x.getD idx 0) &&
      decide (arcs.getD idx (0, 0) = (a, b))

/-- The inner search of the walk of `model_a_2_sync_solution`: the first
`j ∈ [1, n_operations)` with an active arc `(prev, j)`. -/
def first_succ (M : model_a) (x : List ℚ) (prev : ℕ) : Option ℕ :=
  (List.range' 1 (M.n_ops - 1)).find? fun j => used x M.arcs prev j

/-- The `while (!end_of_route)` walk of `model_a_2_sync_solution`: follow
the active out-arc found; when the position after the search (`prev`,
updated only on a find) is the depot return `k + n_depots` the closing `1`
is pushed, otherwise the found successor's `customer + 1` is pushed.  When
no successor exists away from the return the source never terminates (it
keeps pushing the default operation's customer), modelled by exhausting the
fuel: `none`. -/
def decode_walk (M : model_a) (x : List ℚ) (k prev : ℕ) :
    ℕ → Option (List ℕ)
  | 0 => none
  | fuel + 1 =>
    match first_succ M x prev with
    | none => if prev = k + M.D then some [1] else none
    | some j =>
      if j = k + M.D then some [1]
      else
        match decode_walk M x k j fuel with
        | none => none
        | some rest => some ((M.customer j + 1) :: rest)

/-- The route of depot `k` built by `model_a_2_sync_solution`: scan the
operations for active arcs leaving the departure `k`; each one starts a
route fragment `1, customer + 1, …` continued by the walk (the source keeps
appending to `routes[k]`, and asserts that the entered operation belongs to
depot `k`). -/
def decode_route (M : model_a) (x : List ℚ) (k : ℕ) : Option (List ℕ) :=
  (List.range M.n_ops).foldl
    (fun acc i =>
      if used x M.arcs k i then
        if M.depot i = k then
          match acc, decode_walk M x k i (M.n_ops + 1) with
          | some r, some w => some (r ++ [1, M.customer i + 1] ++ w)
          | _, _ => none
        else none
      else acc)
    (some [])

/-- `model_a_solution_interface::model_a_2_sync_solution`: one route per
depot. -/
def model_a_2_sync_solution (M : model_a) (x : List ℚ) :
    Option (List (List ℕ)) :=
  (List.range M.D).mapM fun k => decode_route M x k

/-- The operation pairs produced for one route by
`sync_solution_2_model_a`: `(departure, first)`, the interior pairs
`(route[j], route[j+1])` for `j ∈ [1, size - 2)`, and `(last, return)`,
every customer id sent through `operations_map_`.  Routes too short for the
source's unchecked `route[1]`/`route[size - 2]` accesses are `none`. -/
def route_arc_ops (M : model_a) (k : ℕ) (route : List ℕ) :
    Option (List (ℕ × ℕ)) :=
  if route.length < 2 then none
  else
    match op_map_at M (route.getD 1 0 + 1) (k + 1),
        (List.range' 1 (route.length - 3)).mapM (fun jj =>
          match op_map_at M (route.getD jj 0 + 1) (k + 1),
              op_map_at M (route.getD (jj + 1) 0 + 1) (k + 1) with
          | some a, some b => some (a, b)
          | _, _ => none),
        op_map_at M (route.getD (route.length - 2) 0 + 1) (k + 1) with
    | some o1, some mids, some olast =>
      some ((k, o1) :: mids ++ [(olast, M.D + k)])
    | _, _, _ => none

/-- `model_a_solution_interface::sync_solution_2_model_a`: an empty solution
clears `x`; otherwise `x` is the indicator vector of the arc indices of all
routes' operation pairs (a missing map entry fails the source's
`assert(inx >= 0)`: `none`). -/
def sync_solution_2_model_a (M : model_a) (routes : List (List ℕ)) :
    Option (List ℚ) :=
  if routes.isEmpty then some []
  else
    match (List.range M.D).mapM
        (fun k => route_arc_ops M k (routes.getD k [])) with
    | none => none
    | some pairs =>
      match pairs.flatten.mapM (fun pr => pair_map_at M.arcs pr.1 pr.2) with
      | none => none
      | some idxs =>
        some ((List.range M.arcs.length).map
          fun e => if e ∈ idxs then (1 : ℚ) else 0)

/-- The tiny concrete instance of the claim C8 counterexample: one depot,
one customer; operations `0` (departure, customer id 0), `1` (return,
customer id 2 = N + 1), `2` (the visit, customer id 1); routing arcs
`(0, 2)` and `(2, 1)`. -/
def c8_model : model_a :=
  ⟨1, 3, fun i => [0, 2, 1].getD i 0, fun _ => 0, [(0, 2), (2, 1)]⟩

/-- The consecutive pairs of a vertex sequence. -/
def consec_pairs (l : List ℕ) : List (ℕ × ℕ) :=
  l.zip l.tail

/-- The full vertex sequence of depot `k`'s route: departure, visits,
return. -/
def route_verts (M : model_a) (k : ℕ) (v : List ℕ) : List ℕ :=
  k :: v ++ [M.D + k]

/-- All route vertices, over all depots. -/
def all_route_verts (M : model_a) (vs : List (List ℕ)) : List ℕ :=
  (List.range M.D).flatMap fun k => route_verts M k (vs.getD k [])

/-- All consecutive route pairs (the arcs the routes use), over all
depots. -/
def all_route_pairs (M : model_a) (vs : List (List ℕ)) : List (ℕ × ℕ) :=
  (List.range M.D).flatMap fun k => consec_pairs (route_verts M k (vs.getD k []))

/-- `x` represents the vertex-disjoint routes with visit lists `vs` (one
nonempty visit list per depot, each visit an operation of its depot, all
route vertices pairwise distinct, every route arc a routing arc of the
model, and `x` the 0/1 indicator of exactly the routes' consecutive
pairs). -/
def valid_routing (M : model_a) (x : List ℚ) (vs : List (List ℕ)) : Prop :=
  vs.length = M.D ∧ 1 ≤ M.D ∧ 2 * M.D ≤ M.n_ops ∧
  (∀ k < M.D, vs.getD k [] ≠ []) ∧
  (∀ k < M.D, ∀ v ∈ vs.getD k [], 2 * M.D ≤ v ∧ v < M.n_ops ∧
    M.depot v = k) ∧
  (all_route_verts M vs).Nodup ∧
  x.length = M.arcs.length ∧
  M.arcs.Nodup ∧
  (∀ p ∈ all_route_pairs M vs, p ∈ M.arcs) ∧
  (∀ e < M.arcs.length,
    (x.getD e 0 = 1 ↔ M.arcs.getD e (0, 0) ∈ all_route_pairs M vs) ∧
    (x.getD e 0 = 0 ∨ x.getD e 0 = 1))

/-- The builder invariant claim C8 needs from the model: on customer-visit
operations, the `(customer, depot)` pair determines the operation (this is
what makes `operations_map_` a partial inverse of the operation table). -/
def visit_key_injective (M : model_a) : Prop :=
  ∀ j j2, 2 * M.D ≤ j → j < M.n_ops → 2 * M.D ≤ j2 → j2 < M.n_ops →
    M.customer j = M.customer j2 → M.depot j = M.depot j2 → j = j2

/-- A filter with a unique match keeps exactly that match. -/
lemma c8_filter_eq_single (p : ℕ → Bool) (l : List ℕ) (hnd : l.Nodup)
    (v : ℕ) (hv : v ∈ l) (hpv : p v = true)
    (huniq : ∀ a ∈ l, p a = true → a = v) : l.filter p = [v] := by
  induction l with
  | nil => cases hv
  | cons a t ih =>
    by_cases hpa : p a = true
    · have hav : a = v := huniq a (List.mem_cons_self a t) hpa
      subst hav
      have ht : t.filter p = [] := by
        rw [List.filter_eq_nil_iff]
        intro b hb hpb
        exact (List.nodup_cons.mp hnd).1
          ((huniq b (List.mem_cons_of_mem a hb) hpb) ▸ hb)
      rw [List.filter_cons, if_pos hpa, ht]
    · have hvt : v ∈ t := by
        rcases List.mem_cons.mp hv with rfl | h
        · exact absurd hpv hpa
        · exact h
      rw [List.filter_cons, if_neg hpa]
      exact ih (List.nodup_cons.mp hnd).2 hvt
        fun b hb hpb => huniq b (List.mem_cons_of_mem a hb) hpb

/-- A linear search with a unique match finds exactly that match. -/
lemma c8_find_eq_single (p : ℕ → Bool) (l : List ℕ) (v : ℕ) (hv : v ∈ l)
    (hpv : p v = true) (huniq : ∀ a ∈ l, p a = true → a = v) :
    l.find? p = some v := by
  induction l with
  | nil => cases hv
  | cons a t ih =>
    by_cases hpa : p a = true
    · have hav : a = v := huniq a (List.mem_cons_self a t) hpa
      subst hav
      exact List.find?_cons_of_pos t hpa
    · have hvt : v ∈ t := by
        rcases List.mem_cons.mp hv with rfl | h
        · exact absurd hpv hpa
        · exact h
      rw [List.find?_cons_of_neg t hpa]
      exact ih hvt fun b hb hpb => huniq b (List.mem_cons_of_mem a hb) hpb

/-- An everywhere-successful `mapM` over `Option` is a `map`. -/
lemma c8_mapM_map_eval {α β : Type} (f : α → Option β) (g : α → β) :
    ∀ l : List α, (∀ a ∈ l, f a = some (g a)) → l.mapM f = some (l.map g) := by
  intro l
  induction l with
  | nil => intro _; rfl
  | cons a t ih =>
    intro h
    rw [List.mapM_cons, h a (List.mem_cons_self a t),
      ih fun b hb => h b (List.mem_cons_of_mem a hb)]
    rfl

lemma consec_pairs_cons2 (a b : ℕ) (t : List ℕ) :
    consec_pairs (a :: b :: t) = (a, b) :: consec_pairs (b :: t) := rfl

lemma consec_pairs_mem_fst :
    ∀ (l : List ℕ) (a b : ℕ), (a, b) ∈ consec_pairs l → a ∈ l := by
  intro l
  induction l with
  | nil => intro a b h; simp [consec_pairs] at h
  | cons x t ih =>
    intro a b h
    cases t with
    | nil => simp [consec_pairs] at h
    | cons y t2 =>
      rw [consec_pairs_cons2] at h
      rcases List.mem_cons.mp h with heq | hmem
      · rw [Prod.mk.injEq] at heq
        rw [heq.1]
        exact List.mem_cons_self x (y :: t2)
      · exact List.mem_cons_of_mem x (ih a b hmem)

/-- In a duplicate-free vertex sequence the successor along the consecutive
pairs is unique. -/
lemma consec_pairs_succ_unique :
    ∀ l : List ℕ, l.Nodup → ∀ a b1 b2,
      (a, b1) ∈ consec_pairs l → (a, b2) ∈ consec_pairs l → b1 = b2 := by
  intro l
  induction l with
  | nil => intro _ a b1 b2 h; simp [consec_pairs] at h
  | cons x t ih =>
    intro hnd a b1 b2 h1 h2
    cases t with
    | nil => simp [consec_pairs] at h1
    | cons y t2 =>
      rw [consec_pairs_cons2] at h1 h2
      rcases List.mem_cons.mp h1 with he1 | hm1 <;>
        rcases List.mem_cons.mp h2 with he2 | hm2
      · rw [Prod.mk.injEq] at he1 he2
        exact he1.2.trans he2.2.symm
      · exfalso
        rw [Prod.mk.injEq] at he1
        exact (List.nodup_cons.mp hnd).1
          (he1.1 ▸ consec_pairs_mem_fst _ a b2 hm2)
      · exfalso
        rw [Prod.mk.injEq] at he2
        exact (List.nodup_cons.mp hnd).1
          (he2.1 ▸ consec_pairs_mem_fst _ a b1 hm1)
      · exact ih (List.nodup_cons.mp hnd).2 a b1 b2 hm1 hm2

lemma consec_pairs_length (l : List ℕ) :
    (consec_pairs l).length = l.length - 1 := by
  simp only [consec_pairs, List.length_zip, List.length_tail]
  omega

lemma consec_pairs_getD :
    ∀ (l : List ℕ) (i : ℕ), i + 1 < l.length →
      (consec_pairs l).getD i (0, 0) = (l.getD i 0, l.getD (i + 1) 0) := by
  intro l
  induction l with
  | nil => intro i h; simp at h
  | cons x t ih =>
    intro i h
    cases t with
    | nil => simp at h
    | cons y t2 =>
      cases i with
      | zero => rfl
      | succ m =>
        rw [consec_pairs_cons2]
        have hm : m + 1 < (y :: t2).length := by
          simp at h ⊢; omega
        calc ((x, y) :: consec_pairs (y :: t2)).getD (m + 1) (0, 0)
            = (consec_pairs (y :: t2)).getD m (0, 0) := by
              simp [List.getD_cons_succ]
          _ = ((y :: t2).getD m 0, (y :: t2).getD (m + 1) 0) := ih m hm
          _ = ((x :: y :: t2).getD (m + 1) 0,
                (x :: y :: t2).getD (m + 1 + 1) 0) := by
              simp [List.getD_cons_succ]

/-- Each part of a duplicate-free concatenation is duplicate-free. -/
lemma c8_nodup_flatMap_part {α β : Type} (f : α → List β) :
    ∀ (l : List α) (k : α), k ∈ l → (l.flatMap f).Nodup → (f k).Nodup := by
  intro l
  induction l with
  | nil => intro k hk; cases hk
  | cons a t ih =>
    intro k hk hnd
    rw [List.flatMap_cons] at hnd
    rcases List.mem_cons.mp hk with rfl | hkt
    · exact hnd.of_append_left
    · exact ih k hkt hnd.of_append_right

/-- On a customer-visit operation the rebuilt `operations_map_` inverts the
operation table (last write wins, but the key is unique). -/
lemma op_map_spec (M : model_a) (hinj : visit_key_injective M) (v : ℕ)
    (h1 : 2 * M.D ≤ v) (h2 : v < M.n_ops) :
    op_map_at M (M.customer v + 1) (M.depot v + 1) = some v := by
  unfold op_map_at
  have hfil := c8_filter_eq_single
    (fun jj => decide (2 * M.D ≤ jj) &&
      decide (M.customer jj + 1 = M.customer v + 1) &&
      decide (M.depot jj + 1 = M.depot v + 1))
    (List.range M.n_ops) (List.nodup_range M.n_ops) v (List.mem_range.mpr h2)
    (by simp [h1])
    (by
      intro a ha hpa
      simp only [Bool.and_eq_true, decide_eq_true_eq] at hpa
      exact hinj a v hpa.1.1 (List.mem_range.mp ha) h1 h2
        (by omega) (by omega))
  rw [hfil]
  rfl

/-- For an arc present in a duplicate-free arc list, the rebuilt
`routing_arcs_pair_map_` returns its (unique) index. -/
lemma pair_map_spec (arcs : List (ℕ × ℕ)) (hnd : arcs.Nodup) (a b : ℕ)
    (hmem : (a, b) ∈ arcs) :
    ∃ e, e < arcs.length ∧ arcs.getD e (0, 0) = (a, b) ∧
      pair_map_at arcs a b = some e := by
  obtain ⟨e, he, hge⟩ := List.mem_iff_getElem.mp hmem
  have hgd : arcs.getD e (0, 0) = (a, b) := by
    rw [List.getD_eq_getElem arcs (0, 0) he]
    exact hge
  refine ⟨e, he, hgd, ?_⟩
  unfold pair_map_at
  have hfil := c8_filter_eq_single
    (fun e2 => decide (arcs.getD e2 (0, 0) = (a, b)))
    (List.range arcs.length) (List.nodup_range arcs.length) e (List.mem_range.mpr he)
    (by rw [decide_eq_true_eq]; exact hgd)
    (by
      intro a2 ha2 hpa
      rw [decide_eq_true_eq] at hpa
      have ha2lt := List.mem_range.mp ha2
      rw [List.getD_eq_getElem arcs (0, 0) ha2lt] at hpa
      exact (List.Nodup.getElem_inj_iff hnd).mp (hpa.trans hge.symm))
  rw [hfil]
  rfl

/-- Under a valid routing, the rebuilt `routing_arcs_matrix` holds exactly
the routes' consecutive pairs. -/
lemma used_iff (M : model_a) (x : List ℚ) (P : List (ℕ × ℕ))
    (hxlen : x.length = M.arcs.length)
    (hsub : ∀ p ∈ P, p ∈ M.arcs)
    (hsupp : ∀ e < M.arcs.length,
      (x.getD e 0 = 1 ↔ M.arcs.getD e (0, 0) ∈ P) ∧
      (x.getD e 0 = 0 ∨ x.getD e 0 = 1)) :
    ∀ a b, used x M.arcs a b = true ↔ (a, b) ∈ P := by
  intro a b
  unfold used
  rw [List.any_eq_true]
  constructor
  · rintro ⟨idx, hidx, hcond⟩
    rw [Bool.and_eq_true, decide_eq_true_eq, decide_eq_true_eq] at hcond
    have hlt : idx < M.arcs.length := hxlen ▸ List.mem_range.mp hidx
    obtain ⟨hiff, h01⟩ := hsupp idx hlt
    have hx1 : x.getD idx 0 = 1 := by
      rcases h01 with h0 | h1
      · exfalso
        rw [h0] at hcond
        norm_num at hcond
      · exact h1
    exact hcond.2 ▸ hiff.mp hx1
  · intro hmem
    have harc := hsub _ hmem
    obtain ⟨e, he, hge⟩ := List.mem_iff_getElem.mp harc
    have hgd : M.arcs.getD e (0, 0) = (a, b) := by
      rw [List.getD_eq_getElem M.arcs (0, 0) he]
      exact hge
    refine ⟨e, List.mem_range.mpr (show e < x.length by omega), ?_⟩
    rw [Bool.and_eq_true, decide_eq_true_eq, decide_eq_true_eq]
    obtain ⟨hiff, _⟩ := hsupp e he
    have hx1 : x.getD e 0 = 1 := hiff.mpr (hgd ▸ hmem)
    exact ⟨by rw [hx1]; norm_num, hgd⟩

/-- Distinct parts of a duplicate-free concatenation are disjoint. -/
lemma c8_nodup_flatMap_disj {α β : Type} (f : α → List β) :
    ∀ (l : List α) (k1 k2 : α), k1 ∈ l → k2 ∈ l → k1 ≠ k2 →
      (l.flatMap f).Nodup → ∀ b, b ∈ f k1 → b ∈ f k2 → False := by
  intro l
  induction l with
  | nil => intro k1 k2 h; cases h
  | cons a t ih =>
    intro k1 k2 hk1 hk2 hne hnd b hb1 hb2
    rw [List.flatMap_cons] at hnd
    have hdisj := List.disjoint_of_nodup_append hnd
    rcases List.mem_cons.mp hk1 with rfl | h1 <;>
      rcases List.mem_cons.mp hk2 with rfl | h2
    · exact hne rfl
    · exact hdisj hb1 (List.mem_flatMap.mpr ⟨k2, h2, hb2⟩)
    · exact hdisj hb2 (List.mem_flatMap.mpr ⟨k1, h1, hb1⟩)
    · exact ih k1 k2 h1 h2 hne hnd.of_append_right b hb1 hb2

lemma route_verts_nodup (M : model_a) (vs : List (List ℕ))
    (hall : (all_route_verts M vs).Nodup) (k : ℕ) (hk : k < M.D) :
    (route_verts M k (vs.getD k [])).Nodup := by
  unfold all_route_verts at hall
  exact c8_nodup_flatMap_part _ (List.range M.D) k (List.mem_range.mpr hk) hall

lemma route_pairs_mem (M : model_a) (vs : List (List ℕ)) (k : ℕ)
    (hk : k < M.D) (p : ℕ × ℕ)
    (hp : p ∈ consec_pairs (route_verts M k (vs.getD k []))) :
    p ∈ all_route_pairs M vs := by
  unfold all_route_pairs
  exact List.mem_flatMap.mpr ⟨k, List.mem_range.mpr hk, hp⟩

/-- Route vertices being globally distinct, the successor along the routes'
arcs is unique. -/
lemma all_pairs_succ_unique (M : model_a) (vs : List (List ℕ))
    (hall : (all_route_verts M vs).Nodup) :
    ∀ a b1 b2, (a, b1) ∈ all_route_pairs M vs →
      (a, b2) ∈ all_route_pairs M vs → b1 = b2 := by
  intro a b1 b2 h1 h2
  unfold all_route_pairs at h1 h2
  obtain ⟨k1, hk1, hp1⟩ := List.mem_flatMap.mp h1
  obtain ⟨k2, hk2, hp2⟩ := List.mem_flatMap.mp h2
  by_cases hkeq : k1 = k2
  · subst hkeq
    exact consec_pairs_succ_unique _
      (route_verts_nodup M vs hall k1 (List.mem_range.mp hk1)) a b1 b2 hp1 hp2
  · exfalso
    have ha1 := consec_pairs_mem_fst _ a b1 hp1
    have ha2 := consec_pairs_mem_fst _ a b2 hp2
    unfold all_route_verts at hall
    exact c8_nodup_flatMap_disj _ (List.range M.D) k1 k2 hk1 hk2 hkeq hall
      a ha1 ha2

/-- The inner search of the decode walk finds the unique successor. -/
lemma first_succ_spec (M : model_a) (x : List ℚ) (P : List (ℕ × ℕ))
    (hused : ∀ a b, used x M.arcs a b = true ↔ (a, b) ∈ P)
    (huniq : ∀ a b1 b2, (a, b1) ∈ P → (a, b2) ∈ P → b1 = b2)
    (prev b : ℕ) (hb : (prev, b) ∈ P) (hb1 : 1 ≤ b) (hb2 : b < M.n_ops) :
    first_succ M x prev = some b := by
  unfold first_succ
  apply c8_find_eq_single
  · rw [List.mem_range'_1]
    omega
  · exact (hused prev b).mpr hb
  · intro a _ hpa
    exact huniq prev a b ((hused prev a).mp hpa) hb

lemma decode_walk_succ (M : model_a) (x : List ℚ) (k prev fuel : ℕ) :
    decode_walk M x k prev (fuel + 1) =
      match first_succ M x prev with
      | none => if prev = k + M.D then some [1] else none
      | some j =>
        if j = k + M.D then some [1]
        else
          match decode_walk M x k j fuel with
          | none => none
          | some rest => some ((M.customer j + 1) :: rest) := rfl

/-- The decode walk follows the unique successor chain: started anywhere on
a route with the remaining visit suffix ahead of it, it emits the suffix's
customers (shifted by one) and the closing `1` at the depot return. -/
lemma decode_walk_spec (M : model_a) (x : List ℚ) (P : List (ℕ × ℕ))
    (hused : ∀ a b, used x M.arcs a b = true ↔ (a, b) ∈ P)
    (huniq : ∀ a b1 b2, (a, b1) ∈ P → (a, b2) ∈ P → b1 = b2)
    (k : ℕ) (hk : k < M.D) (h2D : 2 * M.D ≤ M.n_ops) :
    ∀ (suffix : List ℕ) (prev fuel : ℕ),
      (∀ p ∈ consec_pairs (prev :: suffix ++ [M.D + k]), p ∈ P) →
      (∀ v ∈ suffix, 2 * M.D ≤ v ∧ v < M.n_ops) →
      suffix.length + 1 ≤ fuel →
      decode_walk M x k prev fuel =
        some (suffix.map (fun v => M.customer v + 1) ++ [1]) := by
  intro suffix
  induction suffix with
  | nil =>
    intro prev fuel hchain _ hfuel
    obtain ⟨f, rfl⟩ : ∃ f, fuel = f + 1 := ⟨fuel - 1, by omega⟩
    have hpr : (prev, M.D + k) ∈ P :=
      hchain (prev, M.D + k) (List.mem_cons_self _ _)
    have hfs : first_succ M x prev = some (M.D + k) :=
      first_succ_spec M x P hused huniq prev (M.D + k) hpr (by omega)
        (by omega)
    simp only [decode_walk_succ, hfs]
    rw [if_pos (by omega : M.D + k = k + M.D)]
    simp
  | cons v suffix2 ih =>
    intro prev fuel hchain hsuf hfuel
    obtain ⟨f, rfl⟩ : ∃ f, fuel = f + 1 := ⟨fuel - 1, by omega⟩
    have hcons : consec_pairs (prev :: (v :: suffix2) ++ [M.D + k]) =
        (prev, v) :: consec_pairs (v :: suffix2 ++ [M.D + k]) := rfl
    have hpv : (prev, v) ∈ P :=
      hchain (prev, v) (by rw [hcons]; exact List.mem_cons_self _ _)
    have hv := hsuf v (List.mem_cons_self v suffix2)
    have hfs : first_succ M x prev = some v :=
      first_succ_spec M x P hused huniq prev v hpv (by omega) hv.2
    have hvne : ¬ v = k + M.D := by omega
    have hrec := ih v f
      (fun p hp => hchain p (by rw [hcons]; exact List.mem_cons_of_mem _ hp))
      (fun w hw => hsuf w (List.mem_cons_of_mem v hw))
      (by simp only [List.length_cons] at hfuel; omega)
    simp only [decode_walk_succ, hfs]
    rw [if_neg hvne, hrec]
    simp

lemma c8_foldl_skip (M : model_a) (x : List ℚ) (k : ℕ) :
    ∀ (l : List ℕ) (acc : Option (List ℕ)),
      (∀ i ∈ l, used x M.arcs k i = false) →
      l.foldl (fun acc i =>
        if used x M.arcs k i then
          if M.depot i = k then
            match acc, decode_walk M x k i (M.n_ops + 1) with
            | some r, some w => some (r ++ [1, M.customer i + 1] ++ w)
            | _, _ => none
          else none
        else acc) acc = acc := by
  intro l
  induction l with
  | nil => intro acc _; rfl
  | cons a t ih =>
    intro acc h
    rw [List.foldl_cons, if_neg (by simp [h a (List.mem_cons_self a t)])]
    exact ih acc fun i hi => h i (List.mem_cons_of_mem a hi)

/-- A fold whose step fires at exactly one element of a duplicate-free list
is that one step. -/
lemma c8_foldl_single (M : model_a) (x : List ℚ) (k v1 : ℕ)
    (htrig : ∀ i, used x M.arcs k i = true ↔ i = v1) :
    ∀ (l : List ℕ), l.Nodup → v1 ∈ l → ∀ acc,
      l.foldl (fun acc i =>
        if used x M.arcs k i then
          if M.depot i = k then
            match acc, decode_walk M x k i (M.n_ops + 1) with
            | some r, some w => some (r ++ [1, M.customer i + 1] ++ w)
            | _, _ => none
          else none
        else acc) acc =
      (if used x M.arcs k v1 then
        if M.depot v1 = k then
          match acc, decode_walk M x k v1 (M.n_ops + 1) with
          | some r, some w => some (r ++ [1, M.customer v1 + 1] ++ w)
          | _, _ => none
        else none
      else acc) := by
  intro l
  induction l with
  | nil => intro _ hv; cases hv
  | cons a t ih =>
    intro hnd hv acc
    rw [List.foldl_cons]
    rcases List.mem_cons.mp hv with rfl | hvt
    · rw [c8_foldl_skip M x k t _ fun i hi => by
        rcases Bool.eq_false_or_eq_true (used x M.arcs k i) with h1 | h0
        · exact absurd ((htrig i).mp h1 ▸ hi) (List.nodup_cons.mp hnd).1
        · exact h0]
    · have hna : ¬ used x M.arcs k a = true := fun h1 =>
        (List.nodup_cons.mp hnd).1 ((htrig a).mp h1 ▸ hvt)
      rw [if_neg hna]
      exact ih (List.nodup_cons.mp hnd).2 hvt acc

/-- The decoded route of a depot under a valid routing: the `1`-delimited
list of its visits' customers, shifted by one. -/
lemma decode_route_spec (M : model_a) (x : List ℚ) (vs : List (List ℕ))
    (hval : valid_routing M x vs) (k : ℕ) (hk : k < M.D) :
    decode_route M x k =
      some (1 :: (vs.getD k []).map (fun v => M.customer v + 1) ++ [1]) := by
  obtain ⟨hlen, hD, h2D, hne, hvis, hall, hxlen, hand, hsub, hsupp⟩ := hval
  obtain ⟨v1, rest, hV⟩ : ∃ v1 rest, vs.getD k [] = v1 :: rest := by
    cases hV2 : vs.getD k [] with
    | nil => exact absurd hV2 (hne k hk)
    | cons a t => exact ⟨a, t, rfl⟩
  have hused := used_iff M x (all_route_pairs M vs) hxlen hsub hsupp
  have huniq := all_pairs_succ_unique M vs hall
  have hroutepairs : consec_pairs (route_verts M k (vs.getD k [])) =
      (k, v1) :: consec_pairs (v1 :: rest ++ [M.D + k]) := by
    rw [hV]; rfl
  have hkv1 : (k, v1) ∈ all_route_pairs M vs :=
    route_pairs_mem M vs k hk _
      (by rw [hroutepairs]; exact List.mem_cons_self _ _)
  have htrig : ∀ i, used x M.arcs k i = true ↔ i = v1 := by
    intro i
    rw [hused]
    exact ⟨fun hmem => huniq k i v1 hmem hkv1, fun h => h ▸ hkv1⟩
  have hv1 := hvis k hk v1 (by rw [hV]; exact List.mem_cons_self _ _)
  have hnodupR := route_verts_nodup M vs hall k hk
  have hnodupV : (vs.getD k []).Nodup :=
    ((List.nodup_cons.mp hnodupR).2).of_append_left
  have hVlen : (vs.getD k []).length ≤ M.n_ops := by
    have hsubV : vs.getD k [] ⊆ List.range M.n_ops := fun v hv =>
      List.mem_range.mpr (hvis k hk v hv).2.1
    have := (hnodupV.subperm hsubV).length_le
    rwa [List.length_range] at this
  have hwalk := decode_walk_spec M x (all_route_pairs M vs) hused huniq k hk
    h2D rest v1 (M.n_ops + 1)
    (fun p hp => route_pairs_mem M vs k hk p
      (by rw [hroutepairs]; exact List.mem_cons_of_mem _ hp))
    (fun w hw => by
      have := hvis k hk w (by rw [hV]; exact List.mem_cons_of_mem v1 hw)
      exact ⟨this.1, this.2.1⟩)
    (by rw [hV] at hVlen; simp only [List.length_cons] at hVlen; omega)
  unfold decode_route
  rw [c8_foldl_single M x k v1 htrig (List.range M.n_ops)
    (List.nodup_range M.n_ops) (List.mem_range.mpr hv1.2.1) (some [])]
  rw [if_pos ((htrig v1).mpr rfl), if_pos hv1.2.2, hwalk, hV]
  simp

/-- The decode of a valid routing: one `1`-delimited customer list per
depot. -/
lemma decode_spec (M : model_a) (x : List ℚ) (vs : List (List ℕ))
    (hval : valid_routing M x vs) :
    model_a_2_sync_solution M x =
      some ((List.range M.D).map fun k =>
        1 :: (vs.getD k []).map (fun v => M.customer v + 1) ++ [1]) := by
  unfold model_a_2_sync_solution
  apply c8_mapM_map_eval
  intro k hk
  exact decode_route_spec M x vs hval k (List.mem_range.mp hk)

lemma c8_list_ext {α : Type} (d : α) (l1 l2 : List α)
    (hlen : l1.length = l2.length)
    (h : ∀ i < l1.length, l1.getD i d = l2.getD i d) : l1 = l2 := by
  apply List.ext_getElem?
  intro n
  by_cases hn : n < l1.length
  · rw [List.getElem?_eq_getElem hn, List.getElem?_eq_getElem (hlen ▸ hn)]
    have h2 := h n hn
    rw [List.getD_eq_getElem l1 d hn, List.getD_eq_getElem l2 d (hlen ▸ hn)]
      at h2
    rw [h2]
  · rw [List.getElem?_eq_none (by omega), List.getElem?_eq_none (by omega)]

lemma c8_getD_head (a z : ℕ) (cs : List ℕ) :
    (a :: cs ++ [z]).getD 0 0 = a := rfl

lemma c8_getD_mid (a z : ℕ) (cs : List ℕ) (jj : ℕ) (h1 : 1 ≤ jj)
    (h2 : jj ≤ cs.length) :
    (a :: cs ++ [z]).getD jj 0 = cs.getD (jj - 1) 0 := by
  obtain ⟨m, rfl⟩ : ∃ m, jj = m + 1 := ⟨jj - 1, by omega⟩
  rw [List.cons_append, List.getD_cons_succ,
    List.getD_append _ _ _ _ (by omega)]
  simp

lemma c8_getD_last (a z : ℕ) (cs : List ℕ) :
    (a :: cs ++ [z]).getD (cs.length + 1) 0 = z := by
  rw [List.cons_append, List.getD_cons_succ,
    List.getD_append_right _ _ _ _ (le_refl cs.length)]
  simp

/-- Shifting a decoded route's entries down by one (the effect of writing
the solution file and reading it back). -/
lemma c8_shift_route (M : model_a) (V : List ℕ) :
    (1 :: V.map (fun v => M.customer v + 1) ++ [1]).map (fun e => e - 1) =
      0 :: V.map M.customer ++ [0] := by
  simp [List.map_map, Function.comp]

/-- The consecutive pairs of a full route, written positionally the way the
encoder's index loop produces them. -/
lemma consec_route_explicit (k ret : ℕ) (V : List ℕ) (hV : 1 ≤ V.length) :
    consec_pairs (k :: V ++ [ret]) =
      (k, V.getD 0 0) :: ((List.range' 1 (V.length - 1)).map fun jj =>
        (V.getD (jj - 1) 0, V.getD jj 0)) ++ [(V.getD (V.length - 1) 0, ret)] := by
  apply c8_list_ext (0, 0)
  · rw [consec_pairs_length]
    simp only [List.length_append, List.length_cons, List.length_map,
      List.length_range', List.length_nil]
    omega
  · intro i hi
    rw [consec_pairs_length] at hi
    simp only [List.length_append, List.length_cons, List.length_nil] at hi
    have hfull : i + 1 < (k :: V ++ [ret]).length := by
      simp only [List.length_append, List.length_cons, List.length_nil]
      omega
    rw [consec_pairs_getD _ i hfull]
    by_cases hi0 : i = 0
    · subst hi0
      simp only [Nat.zero_add]
      rw [c8_getD_head, c8_getD_mid k ret V 1 (le_refl 1) hV,
        List.cons_append, List.getD_cons_zero]
    · obtain ⟨m, rfl⟩ : ∃ m, i = m + 1 := ⟨i - 1, by omega⟩
      by_cases hiV : m + 1 = V.length
      · rw [c8_getD_mid k ret V (m + 1) (by omega) (by omega),
          show m + 1 + 1 = V.length + 1 by omega, c8_getD_last,
          List.cons_append, List.getD_cons_succ,
          List.getD_append_right _ _ _ _
            (by simp only [List.length_map, List.length_range']; omega)]
        simp only [List.length_map, List.length_range']
        rw [show m - (V.length - 1) = 0 by omega, List.getD_cons_zero]
        simp only [Nat.add_sub_cancel]
        rw [show m = V.length - 1 by omega]
      · have hm1 : m + 1 ≤ V.length := by omega
        rw [c8_getD_mid k ret V (m + 1) (by omega) hm1,
          c8_getD_mid k ret V (m + 1 + 1) (by omega) (by omega),
          List.cons_append, List.getD_cons_succ,
          List.getD_append _ _ _ _
            (by simp only [List.length_map, List.length_range']; omega)]
        have hmm : m < ((List.range' 1 (V.length - 1)).map fun jj =>
            (V.getD (jj - 1) 0, V.getD jj 0)).length := by
          simp only [List.length_map, List.length_range']
          omega
        rw [List.getD_eq_getElem _ _ hmm, List.getElem_map,
          List.getElem_range']
        simp only [Nat.add_sub_cancel, Nat.one_mul]
        rw [show 1 + m - 1 = m by omega, show 1 + m = m + 1 by omega]

/-- On a shifted decoded route, the encoder's positional loop produces
exactly the route's consecutive operation pairs. -/
lemma route_arc_ops_spec (M : model_a) (hinj : visit_key_injective M)
    (k : ℕ) (V : List ℕ) (hVne : 1 ≤ V.length)
    (hvis : ∀ v ∈ V, 2 * M.D ≤ v ∧ v < M.n_ops ∧ M.depot v = k) :
    route_arc_ops M k (0 :: V.map M.customer ++ [0]) =
      some (consec_pairs (route_verts M k V)) := by
  have hlen : (0 :: V.map M.customer ++ [0]).length = V.length + 2 := by
    simp
  have hop : ∀ i < V.length,
      op_map_at M ((V.map M.customer).getD i 0 + 1) (k + 1) =
        some (V.getD i 0) := by
    intro i hi
    have hmem : V.getD i 0 ∈ V := by
      rw [List.getD_eq_getElem _ _ hi]
      exact List.getElem_mem hi
    have hv := hvis _ hmem
    have hcs : (V.map M.customer).getD i 0 = M.customer (V.getD i 0) := by
      rw [List.getD_eq_getElem _ _ (by simpa using hi), List.getElem_map,
        List.getD_eq_getElem _ _ hi]
    rw [hcs, show k + 1 = M.depot (V.getD i 0) + 1 by rw [hv.2.2]]
    exact op_map_spec M hinj _ hv.1 hv.2.1
  have h1 : op_map_at M ((0 :: V.map M.customer ++ [0]).getD 1 0 + 1)
      (k + 1) = some (V.getD 0 0) := by
    rw [c8_getD_mid 0 0 (V.map M.customer) 1 (le_refl 1) (by simpa using hVne)]
    simpa using hop 0 (by omega)
  have h3 : op_map_at M ((0 :: V.map M.customer ++ [0]).getD
      ((0 :: V.map M.customer ++ [0]).length - 2) 0 + 1) (k + 1) =
      some (V.getD (V.length - 1) 0) := by
    rw [hlen, show V.length + 2 - 2 = V.length from by omega,
      c8_getD_mid 0 0 (V.map M.customer) V.length hVne (by simp)]
    exact hop (V.length - 1) (by omega)
  have h2 : (List.range' 1 ((0 :: V.map M.customer ++ [0]).length - 3)).mapM
      (fun jj =>
        match op_map_at M ((0 :: V.map M.customer ++ [0]).getD jj 0 + 1)
            (k + 1),
          op_map_at M ((0 :: V.map M.customer ++ [0]).getD (jj + 1) 0 + 1)
            (k + 1) with
        | some a, some b => some (a, b)
        | _, _ => none) =
      some ((List.range' 1 (V.length - 1)).map fun jj =>
        (V.getD (jj - 1) 0, V.getD jj 0)) := by
    rw [hlen, show V.length + 2 - 3 = V.length - 1 from by omega]
    apply c8_mapM_map_eval
    intro jj hjj
    rw [List.mem_range'_1] at hjj
    have ha : (0 :: V.map M.customer ++ [0]).getD jj 0 =
        (V.map M.customer).getD (jj - 1) 0 :=
      c8_getD_mid 0 0 (V.map M.customer) jj hjj.1 (by simp; omega)
    have hb : (0 :: V.map M.customer ++ [0]).getD (jj + 1) 0 =
        (V.map M.customer).getD jj 0 := by
      have := c8_getD_mid 0 0 (V.map M.customer) (jj + 1) (by omega)
        (by simp; omega)
      simpa using this
    rw [ha, hb, hop (jj - 1) (by omega), hop jj (by omega)]
  unfold route_arc_ops
  rw [if_neg (by rw [hlen]; omega), h1, h2, h3]
  show some _ = _
  rw [show route_verts M k V = k :: V ++ [M.D + k] from rfl,
    consec_route_explicit k (M.D + k) V hVne]

/-- The arc index the rebuilt pair map returns for a present pair. -/
def c8_arc_index (arcs : List (ℕ × ℕ)) (p : ℕ × ℕ) : ℕ :=
  (((List.range arcs.length).filter
    fun e => decide (arcs.getD e (0, 0) = p)).getLast?).getD 0

lemma c8_arc_index_spec (arcs : List (ℕ × ℕ)) (hnd : arcs.Nodup)
    (p : ℕ × ℕ) (hp : p ∈ arcs) :
    pair_map_at arcs p.1 p.2 = some (c8_arc_index arcs p) ∧
      c8_arc_index arcs p < arcs.length ∧
      arcs.getD (c8_arc_index arcs p) (0, 0) = p := by
  rcases p with ⟨a, b⟩
  obtain ⟨e, he, hgd, hpm⟩ := pair_map_spec arcs hnd a b hp
  have hidx : c8_arc_index arcs (a, b) = e := by
    unfold c8_arc_index
    unfold pair_map_at at hpm
    rw [hpm]
    rfl
  rw [hidx]
  exact ⟨hpm, he, hgd⟩

/-- Re-encoding the shifted decoded routes of a valid routing restores
exactly the original arc-indicator vector. -/
lemma encode_spec (M : model_a) (x : List ℚ) (vs : List (List ℕ))
    (hval : valid_routing M x vs) (hinj : visit_key_injective M) :
    sync_solution_2_model_a M
      (((List.range M.D).map fun k =>
          1 :: (vs.getD k []).map (fun v => M.customer v + 1) ++ [1]).map
        fun r => r.map fun e => e - 1) = some x := by
  obtain ⟨hlen, hD, h2D, hne, hvis, hall, hxlen, hand, hsub, hsupp⟩ := hval
  have hshift : ((List.range M.D).map fun k =>
      1 :: (vs.getD k []).map (fun v => M.customer v + 1) ++ [1]).map
        (fun r => r.map fun e => e - 1) =
      (List.range M.D).map fun k =>
        0 :: (vs.getD k []).map M.customer ++ [0] := by
    rw [List.map_map]
    exact List.map_congr_left fun k _ => c8_shift_route M (vs.getD k [])
  rw [hshift]
  unfold sync_solution_2_model_a
  rw [if_neg (by simp [List.isEmpty_iff, List.range_eq_nil]; omega)]
  have hVlen : ∀ k < M.D, 1 ≤ (vs.getD k []).length := by
    intro k hk
    cases h : vs.getD k [] with
    | nil => exact absurd h (hne k hk)
    | cons a t => exact Nat.succ_le_succ (Nat.zero_le t.length)
  have hroute : ∀ k < M.D, ((List.range M.D).map fun k2 =>
      0 :: (vs.getD k2 []).map M.customer ++ [0]).getD k [] =
      0 :: (vs.getD k []).map M.customer ++ [0] := by
    intro k hk
    rw [List.getD_eq_getElem _ _ (by simpa using hk), List.getElem_map,
      List.getElem_range]
  have hpairs : (List.range M.D).mapM (fun k =>
      route_arc_ops M k (((List.range M.D).map fun k2 =>
        0 :: (vs.getD k2 []).map M.customer ++ [0]).getD k [])) =
      some ((List.range M.D).map fun k =>
        consec_pairs (route_verts M k (vs.getD k []))) := by
    apply c8_mapM_map_eval
    intro k hk
    have hkD := List.mem_range.mp hk
    rw [hroute k hkD]
    exact route_arc_ops_spec M hinj k (vs.getD k []) (hVlen k hkD)
      fun v hv => hvis k hkD v hv
  have hflat : ((List.range M.D).map fun k =>
      consec_pairs (route_verts M k (vs.getD k []))).flatten =
      all_route_pairs M vs := by
    unfold all_route_pairs
    rw [List.flatMap_def]
  have hidxs : (all_route_pairs M vs).mapM
      (fun pr => pair_map_at M.arcs pr.1 pr.2) =
      some ((all_route_pairs M vs).map fun p => c8_arc_index M.arcs p) := by
    apply c8_mapM_map_eval
    intro p hp
    exact (c8_arc_index_spec M.arcs hand p (hsub p hp)).1
  simp only [hpairs, hflat, hidxs]
  have hxs : (List.range M.arcs.length).map
      (fun e => if e ∈ (all_route_pairs M vs).map
        (fun p => c8_arc_index M.arcs p) then (1 : ℚ) else 0) = x := by
    apply c8_list_ext (0 : ℚ)
    · simp [hxlen]
    · intro e he2
      have he : e < M.arcs.length := by simpa using he2
      rw [List.getD_eq_getElem _ _ he2]
      simp only [List.getElem_map, List.getElem_range]
      obtain ⟨hiff, h01⟩ := hsupp e he
      by_cases hmem : M.arcs.getD e (0, 0) ∈ all_route_pairs M vs
      · have hgen : ∀ p, M.arcs.getD e (0, 0) = p →
            p ∈ all_route_pairs M vs → c8_arc_index M.arcs p = e := by
          intro p hpeq hpmem
          have hspec := c8_arc_index_spec M.arcs hand p (hsub _ hpmem)
          have hsame : M.arcs.getD (c8_arc_index M.arcs p) (0, 0) =
              M.arcs.getD e (0, 0) := by rw [hspec.2.2, hpeq]
          rw [List.getD_eq_getElem _ _ hspec.2.1,
            List.getD_eq_getElem _ _ he] at hsame
          exact (List.Nodup.getElem_inj_iff hand).mp hsame
        have hcond : e ∈ (all_route_pairs M vs).map
            fun p => c8_arc_index M.arcs p :=
          List.mem_map.mpr ⟨M.arcs.getD e (0, 0), hmem, hgen _ rfl hmem⟩
        rw [if_pos hcond, hiff.mpr hmem]
      · have hx0 : x.getD e 0 = 0 := by
          rcases h01 with h0 | h1
          · exact h0
          · exact absurd (hiff.mp h1) hmem
        have hcond : e ∉ (all_route_pairs M vs).map
            fun p => c8_arc_index M.arcs p := by
          intro hcon
          obtain ⟨p, hpmem, hpe⟩ := List.mem_map.mp hcon
          have hspec := c8_arc_index_spec M.arcs hand p (hsub p hpmem)
          rw [hpe] at hspec
          exact hmem (hspec.2.2 ▸ hpmem)
        rw [if_neg hcond, hx0]
  rw [hxs]

/-- The concrete instance `c8_model` with `x = [1, 1]` (both arcs active)
is a valid routing with the single visit list `[2]`, and its operation
table has injective `(customer, depot)` keys on visits. -/
lemma c8_instance_facts :
    valid_routing c8_model [1, 1] [[2]] ∧ visit_key_injective c8_model := by
  constructor
  · refine ⟨rfl, le_refl 1, by norm_num [c8_model], by decide, by decide,
      by decide, rfl, by decide, by decide, ?_⟩
    intro e he
    have he2 : e = 0 ∨ e = 1 := by
      simp only [c8_model, List.length_cons, List.length_nil] at he
      omega
    rcases he2 with rfl | rfl
    · exact ⟨⟨fun _ => by decide, fun _ => rfl⟩, Or.inr rfl⟩
    · exact ⟨⟨fun _ => by decide, fun _ => rfl⟩, Or.inr rfl⟩
  · intro j j2 h1 h2 h3 h4 _ _
    simp only [c8_model] at h1 h2 h3 h4
    omega

/-- Claim C8 counterexample: on `c8_model` with both arcs active, decoding
yields the route `[1, 2, 1]` (1-based: depot delimiter `1`, customer
`1 + 1`), but re-encoding that route as-is looks up customer
`route[1] + 1 = 3` in the operations map, finds nothing (the encoder
expects the solution reader's 0-based entries), and fails its
`assert(inx >= 0)`: the round trip is not the identity. -/
theorem claim_C8_counterexample :
    valid_routing c8_model [1, 1] [[2]] ∧
    visit_key_injective c8_model ∧
    model_a_2_sync_solution c8_model [1, 1] = some [[1, 2, 1]] ∧
    (model_a_2_sync_solution c8_model [1, 1]).bind
      (fun routes => sync_solution_2_model_a c8_model routes) = none ∧
    (model_a_2_sync_solution c8_model [1, 1]).bind
      (fun routes => sync_solution_2_model_a c8_model routes) ≠
      some [1, 1] := by
  have hdec : model_a_2_sync_solution c8_model [1, 1] = some [[1, 2, 1]] := by
    rw [decode_spec c8_model [1, 1] [[2]] c8_instance_facts.1]
    rfl
  have hbind : (model_a_2_sync_solution c8_model [1, 1]).bind
      (fun routes => sync_solution_2_model_a c8_model routes) = none := by
    rw [hdec, Option.some_bind]
    rfl
  refine ⟨c8_instance_facts.1, c8_instance_facts.2, hdec, hbind, ?_⟩
  rw [hbind]
  intro h
  cases h

/-- **C8** (amended): for every arc-indicator vector `x` that represents
vertex-disjoint depot routes (each from a departure to its depot's return,
with at least one customer visit), decoding `x` to per-depot routes and
re-encoding the routes *after shifting every entry down by one* — the
conversion the solution-file round trip applies, since decoded routes carry
1-based `customer + 1` entries while the encoder expects the solution
reader's 0-based entries — restores `x` exactly.  As stated (without the
shift) the claim fails: see the counterexample. -/
theorem claim_C8 (M : model_a) (x : List ℚ) (vs : List (List ℕ))
    (hval : valid_routing M x vs) (hinj : visit_key_injective M) :
    (model_a_2_sync_solution M x).bind
      (fun routes => sync_solution_2_model_a M
        (routes.map fun r => r.map fun e => e - 1)) = some x := by
  rw [decode_spec M x vs hval, Option.some_bind]
  exact encode_spec M x vs hval hinj

/-- Witness: the round trip with the shift restores `x = [1, 1]` on the
concrete instance. -/
theorem claim_C8_witness :
    valid_routing c8_model [1, 1] [[2]] ∧ visit_key_injective c8_model ∧
    (model_a_2_sync_solution c8_model [1, 1]).bind
      (fun routes => sync_solution_2_model_a c8_model
        (routes.map fun r => r.map fun e => e - 1)) = some [1, 1] :=
  ⟨c8_instance_facts.1, c8_instance_facts.2,
    claim_C8 c8_model [1, 1] [[2]] c8_instance_facts.1 c8_instance_facts.2⟩

end CTSP
